import Mathlib

namespace CurveViewer

/-!
# PT CurveViewer Gen2 — verification of the data pipeline and analytic engine

A shallow embedding, in Lean 4, of the algorithmic core of the PT CurveViewer
repository: status normalization and point decoding of the XML parser, the
axis aggregator, the statistics/correlation engine (histogram binning,
Pearson correlation, linear regression), the LTTB downsampler, the X-sync
offset engine, and the visible-channel resolver of the plot component.

JavaScript numbers are embedded as exact rationals (`ℚ`): every claim
checked here concerns structure (ordering, lengths, indices, null-guards,
error accumulation), not binary64 rounding.  JavaScript arrays are `List`s;
out-of-range reads, which the verified code paths never perform, are
embedded as `getD` with default `0`.  Mutable records (`Record<string, T>`)
are embedded as functions `String → Option T` updated pointwise.
-/

/-! ## Status normalization (`src/services/xmlParser.ts`, `mapValueStatus`) -/

/-- Map XML ActSet Value status codes.  Normalizes legacy raw status values
to standard codes: `0 → 501` (OK), `1 → 256` (deactivated), `2 → 502` (NOK);
all other codes are kept as-is. -/
def mapValueStatus (rawStatus : ℤ) : ℤ :=
  if rawStatus = 0 then 501
  else if rawStatus = 1 then 256
  else if rawStatus = 2 then 502
  else rawStatus

/-- One raw `<setValue>`/`<actualValue>` XML record, after attribute
coercion; only the fields the verified claims read are kept (colors, unit,
precision, rowNumber, dataType are carried unchanged by the parser and are
elided here). -/
structure RawActSetValue where
  description : String
  status : ℤ
  value : String
  deriving DecidableEq

/-- A parsed set/actual value row (field subset as in `RawActSetValue`). -/
structure ActSetValue where
  description : String
  status : ℤ
  value : String
  deriving DecidableEq

/-- `parseSetValues` (`xmlParser.ts`): maps every raw record to a typed row,
normalizing its status through `mapValueStatus`.  The XML plumbing (missing
`plc` node, single-element array wrapping) that yields the raw record list
is elided. -/
def parseSetValues (vals : List RawActSetValue) : List ActSetValue :=
  vals.map fun sv =>
    { description := sv.description
      status := mapValueStatus sv.status
      value := sv.value }

/-- `parseActualValues` (`xmlParser.ts`): identical mapping for actual
values. -/
def parseActualValues (vals : List RawActSetValue) : List ActSetValue :=
  vals.map fun av =>
    { description := av.description
      status := mapValueStatus av.status
      value := av.value }

/-! ## Data model for channels (`src/types`, field subset) -/

/-- Declared coordinate-system bounds of a channel (`CoordSystem`); the Z
bounds, origin and color fields are never read by the verified code. -/
structure CoordSystem where
  minX : ℚ
  maxX : ℚ
  minY : ℚ
  maxY : ℚ
  deriving DecidableEq

/-- A curve channel (`CurveChannel`), restricted to the fields the verified
code reads: identity, axis names, declared bounds, and the point arrays. -/
structure CurveChannel where
  id : String
  description : String
  xName : String
  yName : String
  coordSystem : CoordSystem
  pointsX : List ℚ
  pointsY : List ℚ
  deriving DecidableEq

/-! ## Axis aggregator (`src/utils/axisAggregator.ts`) -/

/-- Result record of `aggregateAxisRanges`. -/
structure AggregatedRange where
  minX : ℚ
  maxX : ℚ
  minY : ℚ
  maxY : ℚ
  deriving DecidableEq

/-- `aggregateAxisRanges`: union of the declared `CoordSystem` ranges.  The
source folds `Math.min`/`Math.max` starting from `±Infinity`; over a
nonempty list this equals folding from the first channel's bounds, which is
how the fold is embedded (`ℚ` has no infinities). -/
def aggregateAxisRanges (channels : List CurveChannel) : AggregatedRange :=
  match channels with
  | [] => { minX := 0, maxX := 1, minY := 0, maxY := 1 }
  | c :: rest =>
    { minX := rest.foldl (fun acc ch => min acc ch.coordSystem.minX) c.coordSystem.minX
      maxX := rest.foldl (fun acc ch => max acc ch.coordSystem.maxX) c.coordSystem.maxX
      minY := rest.foldl (fun acc ch => min acc ch.coordSystem.minY) c.coordSystem.minY
      maxY := rest.foldl (fun acc ch => max acc ch.coordSystem.maxY) c.coordSystem.maxY }

/-- Example channel `{minX:0, maxX:10}` from the aggregation claim. -/
def exampleChannelA : CurveChannel :=
  { id := "a", description := "", xName := "Time", yName := "F"
    coordSystem := { minX := 0, maxX := 10, minY := 0, maxY := 1 }
    pointsX := [], pointsY := [] }

/-- Example channel `{minX:-5, maxX:8}` from the aggregation claim. -/
def exampleChannelB : CurveChannel :=
  { id := "b", description := "", xName := "Time", yName := "F"
    coordSystem := { minX := -5, maxX := 8, minY := 0, maxY := 1 }
    pointsX := [], pointsY := [] }

/-! ## Statistics/correlation engine (`ValueDetailModal.tsx`) -/

/-- `pearsonR`: Pearson correlation over paired samples.  The source loop
runs `i < xs.length` reading `ys[i]`; callers pass equal-length series, and
the pairing is embedded as `xs.zip ys`.  The source's denominator is
`Math.sqrt (dx2 * dy2)` and the null guard is `denom === 0`; for the
nonnegative radicand `dx2 * dy2` the square root is zero exactly when the
radicand is, so the guard is embedded as `dx2 * dy2 = 0`.  The square root
itself is irrational in general, so the non-null result is returned as the
pair `(num, dx2 * dy2)`, the correlation being `num / √(dx2·dy2)`; the
verified claim concerns only nullness.  Exact rationals carry no
NaN/Infinity. -/
def pearsonR (xs ys : List ℚ) : Option (ℚ × ℚ) :=
  let n := xs.length
  if n < 2 then none
  else
    let mx := xs.sum / (n : ℚ)
    let my := ys.sum / (n : ℚ)
    let s :=
      (xs.zip ys).foldl
        (fun acc p =>
          (acc.1 + (p.1 - mx) * (p.2 - my),
            acc.2.1 + (p.1 - mx) * (p.1 - mx),
            acc.2.2 + (p.2 - my) * (p.2 - my)))
        ((0 : ℚ), (0 : ℚ), (0 : ℚ))
    if s.2.1 * s.2.2 = 0 then none else some (s.1, s.2.1 * s.2.2)

/-- `linearRegression`: least-squares line over paired samples, `none` when
fewer than two pairs exist or the x-variance accumulator `den` is zero. -/
def linearRegression (xs ys : List ℚ) : Option (ℚ × ℚ) :=
  let n := xs.length
  if n < 2 then none
  else
    let mx := xs.sum / (n : ℚ)
    let my := ys.sum / (n : ℚ)
    let s :=
      (xs.zip ys).foldl
        (fun acc p =>
          (acc.1 + (p.1 - mx) * (p.2 - my),
            acc.2 + (p.1 - mx) * (p.1 - mx)))
        ((0 : ℚ), (0 : ℚ))
    if s.2 = 0 then none
    else
      let slope := s.1 / s.2
      some (slope, my - slope * mx)

/-- The sum of squared deviations of a series from its mean (the "variance
numerator"); zero exactly for a zero-variance series. -/
def sumSqDev (l : List ℚ) : ℚ :=
  (l.map (fun v =>
    (v - l.sum / (l.length : ℚ)) * (v - l.sum / (l.length : ℚ)))).sum

/-! ## Histogram binning (`ValueDetailModal.tsx`, `computeHistogramBins`) -/

/-- `Math.min(...values)` over a nonempty list: fold from the first
element (the source folds from `Infinity`, which `ℚ` lacks; over a
nonempty list the two folds agree).  The empty case is unreachable. -/
def minOf (values : List ℚ) : ℚ :=
  match values with
  | [] => 0
  | v :: vs => vs.foldl min v

/-- `Math.max(...values)` over a nonempty list, as in `minOf`. -/
def maxOf (values : List ℚ) : ℚ :=
  match values with
  | [] => 0
  | v :: vs => vs.foldl max v

/-- An interior histogram bin during filling: lower/upper edge, member
count, and member indices (in insertion order). -/
structure HistBin where
  start : ℚ
  «end» : ℚ
  count : ℕ
  indices : List ℕ
  deriving DecidableEq

/-- A returned histogram bin: the edges are replaced by a label.  The
source formats the label with `toPrecision(4)` (`String(min)` in the
degenerate branch); the formatting is presentation only and the label here
carries the unformatted value. -/
structure LabeledBin where
  label : ℚ
  count : ℕ
  indices : List ℕ
  deriving DecidableEq

/-- `bins[idx].count++; bins[idx].indices.push(vi)`.  The out-of-range
case cannot arise for a clamped index and at least one bin. -/
def addToBin (bins : List HistBin) (idx : ℕ) (vi : ℕ) : List HistBin :=
  match bins.get? idx with
  | none => bins
  | some b => bins.set idx { b with count := b.count + 1, indices := b.indices ++ [vi] }

/-- The source's `for (vi …) { … bins[idx].count++; bins[idx].indices.push(vi) }`
loop over the indexed values, with `f` the clamped bin-index function. -/
def fillBins (bins : List HistBin) (pairs : List (ℕ × ℚ)) (f : ℚ → ℕ) : List HistBin :=
  pairs.foldl (fun bs p => addToBin bs (f p.2) p.1) bins

/-- The clamped bin index `Math.min(Math.floor((v − min)/binWidth), binCount − 1)`.
For list members `v ≥ min` and positive width the floor is nonnegative, so
the `ℕ` conversion is exact. -/
def binIndex (mn binWidth : ℚ) (binCount : ℕ) (v : ℚ) : ℕ :=
  min (⌊(v - mn) / binWidth⌋.toNat) (binCount - 1)

/-- `computeHistogramBins` (`ValueDetailModal.tsx`): empty input yields no
bins; an all-equal input yields the single degenerate bin; otherwise
`binCount` equal-width bins over `[min, max]` are filled by clamped index
and then labeled by their lower edge. -/
def computeHistogramBins (values : List ℚ) (binCount : ℕ) : List LabeledBin :=
  if values = [] then []
  else
    let mn := minOf values
    let mx := maxOf values
    if mn = mx then
      [{ label := mn, count := values.length, indices := List.range values.length }]
    else
      let binWidth := (mx - mn) / (binCount : ℚ)
      let bins0 := (List.range binCount).map (fun i =>
        { start := mn + (i : ℚ) * binWidth
          «end» := mn + ((i : ℚ) + 1) * binWidth
          count := 0
          indices := ([] : List ℕ) } : ℕ → HistBin)
      let filled := fillBins bins0 values.enum (binIndex mn binWidth binCount)
      filled.map (fun b => { label := b.start, count := b.count, indices := b.indices })

/-! ## X-sync offset engine (`syncService`, `part_009`) -/

/-- An imported file (`ImportedFile`), restricted to the fields the sync
engine reads; `idString` stands for `header.idString`. -/
structure ImportedFile where
  id : String
  filename : String
  idString : String
  curves : List CurveChannel
  deriving DecidableEq

/-- Sync mode enum (`SyncMode`). -/
inductive SyncMode where
  | off
  | xmin
  | xmax
  | ythreshold
  deriving DecidableEq

/-- The master-channel test used by the sync engine: X-axis name equals the
active X-axis and the Y-axis name or the description equals the master
axis string. -/
def isMasterChannel (masterYAxis activeXAxis : String) (ch : CurveChannel) : Bool :=
  ch.xName == activeXAxis && (ch.yName == masterYAxis || ch.description == masterYAxis)

/-- `findMasterPoints`: the `pointsX` of the first channel matching the
master test, or `none`. -/
def findMasterPoints (file : ImportedFile) (masterYAxis activeXAxis : String) :
    Option (List ℚ) :=
  (file.curves.find? (isMasterChannel masterYAxis activeXAxis)).map (·.pointsX)

/-- The `for (let i = 1; i < len; i++)` walk of
`findFirstThresholdCrossing`: exact hit on `pointsY[i]` wins, then a strict
sign change around the threshold is linearly interpolated; otherwise
continue. -/
def crossingLoop (pointsX pointsY : List ℚ) (threshold : ℚ) (i : ℕ) : Option ℚ :=
  if h : i < pointsX.length then
    let y0 := pointsY.getD (i - 1) 0
    let y1 := pointsY.getD i 0
    if y1 = threshold then some (pointsX.getD i 0)
    else if (y0 < threshold ∧ y1 > threshold) ∨ (y0 > threshold ∧ y1 < threshold) then
      some (pointsX.getD (i - 1) 0 +
        (threshold - y0) / (y1 - y0) * (pointsX.getD i 0 - pointsX.getD (i - 1) 0))
    else crossingLoop pointsX pointsY threshold (i + 1)
  else none
  termination_by pointsX.length - i
  decreasing_by simp_wf; omega

/-- `findFirstThresholdCrossing`: `none` on an empty series, the first
sample's X on an exact first-sample hit, otherwise the walk from index 1. -/
def findFirstThresholdCrossing (pointsX pointsY : List ℚ) (threshold : ℚ) : Option ℚ :=
  if pointsX.length = 0 then none
  else if pointsY.getD 0 0 = threshold then some (pointsX.getD 0 0)
  else crossingLoop pointsX pointsY threshold 1

/-- A crossing event of the walk at index `i` (`len` is the series
length): an exact first-sample hit at `i = 0`, or, at `1 ≤ i < len`, an
exact hit on `y_i` or a strict sign change between `y_(i−1)` and `y_i`. -/
def crossingEventAt (ys : List ℚ) (T : ℚ) (len : ℕ) (i : ℕ) : Prop :=
  (i = 0 ∧ 0 < len ∧ ys.getD 0 0 = T) ∨
  (1 ≤ i ∧ i < len ∧
    (ys.getD i 0 = T ∨
      (ys.getD (i - 1) 0 < T ∧ ys.getD i 0 > T) ∨
      (ys.getD (i - 1) 0 > T ∧ ys.getD i 0 < T)))

/-- The crossing X reported for an event at index `i`: the sample X for an
exact hit (or the first sample), else the linear interpolation
`x0 + ((T−y0)/(y1−y0))·(x1−x0)`. -/
def crossingValueAt (xs ys : List ℚ) (T : ℚ) (i : ℕ) : ℚ :=
  if ys.getD i 0 = T ∨ i = 0 then xs.getD i 0
  else xs.getD (i - 1) 0 +
    (T - ys.getD (i - 1) 0) / (ys.getD i 0 - ys.getD (i - 1) 0) *
      (xs.getD i 0 - xs.getD (i - 1) 0)

/-- `file.header.idString || file.filename` (the empty string is falsy). -/
def displayName (file : ImportedFile) : String :=
  if file.idString = "" then file.filename else file.idString

/-- The error message recorded when no master channel exists in a file. -/
def noMasterMsg (file : ImportedFile) (masterYAxis : String) : String :=
  displayName file ++ ": No master channel found for Y-axis \"" ++ masterYAxis ++ "\""

/-- Result of `calculateSyncOffsets`: the `fileId → offset` record is
embedded as a pointwise-updated function, the error list as a list. -/
structure SyncCalcResult where
  offsets : String → Option ℚ
  errors : List String

/-- `offsets[fileId] = v` on a `Record<string, number>`. -/
def updateOffsets (m : String → Option ℚ) (k : String) (v : ℚ) : String → Option ℚ :=
  fun s => if s = k then some v else m s

/-- The offset the loop body of `calculateSyncOffsets` records for one
file: 0 on every error path (`let offset = 0` remains), the negated
minimum/maximum of the master `pointsX` for `xmin`/`xmax` (the source folds
from `±Infinity`, embedded as a fold from the first element of the
nonempty list), and the negated first threshold crossing for
`ythreshold`. -/
def fileSyncOffset (mode : SyncMode) (masterYAxis activeXAxis : String)
    (threshold : ℚ) (file : ImportedFile) : ℚ :=
  match findMasterPoints file masterYAxis activeXAxis with
  | none => 0
  | some masterX =>
    if masterX.length = 0 then 0
    else
      match mode with
      | SyncMode.off => 0
      | SyncMode.xmin =>
        match masterX with
        | [] => 0
        | v :: vs => -(vs.foldl min v)
      | SyncMode.xmax =>
        match masterX with
        | [] => 0
        | v :: vs => -(vs.foldl max v)
      | SyncMode.ythreshold =>
        match file.curves.find? (isMasterChannel masterYAxis activeXAxis) with
        | none => 0
        | some masterCh =>
          match findFirstThresholdCrossing masterCh.pointsX masterCh.pointsY threshold with
          | none => 0
          | some crossingX => -crossingX

/-- The error messages the loop body of `calculateSyncOffsets` appends for
one file (zero or one).  The `${threshold}` interpolation of the
"not crossed" message is embedded with `toString`. -/
def fileSyncErrors (mode : SyncMode) (masterYAxis activeXAxis : String)
    (threshold : ℚ) (file : ImportedFile) : List String :=
  match findMasterPoints file masterYAxis activeXAxis with
  | none => [noMasterMsg file masterYAxis]
  | some masterX =>
    if masterX.length = 0 then [noMasterMsg file masterYAxis]
    else
      match mode with
      | SyncMode.ythreshold =>
        match file.curves.find? (isMasterChannel masterYAxis activeXAxis) with
        | none => [displayName file ++ ": Master channel not found"]
        | some masterCh =>
          match findFirstThresholdCrossing masterCh.pointsX masterCh.pointsY threshold with
          | none => [displayName file ++ ": Y-threshold " ++ toString threshold ++ " not crossed"]
          | some _ => []
      | _ => []

/-- One iteration of the `calculateSyncOffsets` file loop: record this
file's offset under its id and append its error messages. -/
def syncFileStep (mode : SyncMode) (masterYAxis activeXAxis : String) (threshold : ℚ)
    (acc : SyncCalcResult) (file : ImportedFile) : SyncCalcResult :=
  { offsets := updateOffsets acc.offsets file.id
      (fileSyncOffset mode masterYAxis activeXAxis threshold file)
    errors := acc.errors ++ fileSyncErrors mode masterYAxis activeXAxis threshold file }

/-- `calculateSyncOffsets`: fold the per-file step over the batch in
order, from an empty record and error list.  The progress callback and the
event-loop yields of the async source are dropped: they do not affect the
returned offsets and errors. -/
def calculateSyncOffsets (files : List ImportedFile) (mode : SyncMode)
    (masterYAxis activeXAxis : String) (threshold : ℚ) : SyncCalcResult :=
  files.foldl (syncFileStep mode masterYAxis activeXAxis threshold)
    { offsets := fun _ => none, errors := [] }

/-- The master channel of the worked ythreshold example:
`x=[0,1,2], y=[0,10,20]` on the `Time` axis. -/
def exampleSyncChannel : CurveChannel :=
  { id := "c1", description := "Force", xName := "Time", yName := "F"
    coordSystem := { minX := 0, maxX := 2, minY := 0, maxY := 20 }
    pointsX := [0, 1, 2], pointsY := [0, 10, 20] }

/-- The file holding `exampleSyncChannel`. -/
def exampleSyncFile : ImportedFile :=
  { id := "f1", filename := "a.xml", idString := "", curves := [exampleSyncChannel] }

/-- A file without any channel, so without a master channel. -/
def exampleNoMasterFile : ImportedFile :=
  { id := "f2", filename := "b.xml", idString := "B", curves := [] }

/-! ## Visible-channel resolver (`CurvePlot.tsx`, `allChannels`) -/

/-- A channel reference inside a group (`ChannelRef`). -/
structure ChannelRef where
  fileId : String
  channelId : String
  deriving DecidableEq

/-- A channel group (`ChannelGroup`; the `name` field is never read by the
resolver). -/
structure ChannelGroup where
  id : String
  isActive : Bool
  channels : List ChannelRef
  deriving DecidableEq

/-- One entry of the resolver output: `{channel, file, groupId}`. -/
structure RenderTuple where
  channel : CurveChannel
  file : ImportedFile
  groupId : String
  deriving DecidableEq

/-- The synthetic dedup key `` `${groupId}-${fileId}-${channelId}` ``. -/
def synthKey (groupId fileId channelId : String) : String :=
  groupId ++ "-" ++ fileId ++ "-" ++ channelId

/-- The synthetic key of an output tuple. -/
def tupleKey (t : RenderTuple) : String :=
  synthKey t.groupId t.file.id t.channel.id

/-- `selKey.split('::')` over the character list: leftmost, non-overlapping
split on the two-character separator (`String.splitOn` is not
kernel-reducible, so the split is embedded structurally). -/
def splitKeyAux (acc : List Char) : List Char → List (List Char)
  | [] => [acc.reverse]
  | ':' :: ':' :: rest => acc.reverse :: splitKeyAux [] rest
  | c :: rest => splitKeyAux (c :: acc) rest

/-- `selKey.split('::')` as strings. -/
def splitSelKey (s : String) : List String :=
  (splitKeyAux [] s.data).map String.mk

/-- Resolver state: the `seenKeys` JS `Set` embedded as a list grown in
insertion order, and the `channelList` accumulator. -/
abbrev ResolverState := List String × List RenderTuple

/-- One active-group channel ref of phase (a): resolve the file and the
channel (dangling refs dropped silently) and push the tuple unless its
synthetic key was already seen. -/
def groupRefStep (files : List ImportedFile) (gid : String)
    (st : ResolverState) (ref : ChannelRef) : ResolverState :=
  match files.find? (fun f => f.id == ref.fileId) with
  | none => st
  | some file =>
    match file.curves.find? (fun c => c.id == ref.channelId) with
    | none => st
    | some channel =>
      if synthKey gid ref.fileId ref.channelId ∈ st.1 then st
      else (st.1 ++ [synthKey gid ref.fileId ref.channelId],
        st.2 ++ [{ channel := channel, file := file, groupId := gid }])

/-- One group of phase (a): inactive groups are skipped whole. -/
def groupStep (files : List ImportedFile) (st : ResolverState)
    (group : ChannelGroup) : ResolverState :=
  if group.isActive then group.channels.foldl (groupRefStep files group.id) st
  else st

/-- One tree-selection key of phase (b): split on `"::"`, skip if the
`ungrouped` synthetic key was already seen, resolve the file and channel,
and push under the sentinel group id `"ungrouped"`. -/
def treeSelStep (files : List ImportedFile) (st : ResolverState)
    (selKey : String) : ResolverState :=
  match splitSelKey selKey with
  | fileId :: channelId :: _ =>
    if synthKey "ungrouped" fileId channelId ∈ st.1 then st
    else
      match files.find? (fun f => f.id == fileId) with
      | none => st
      | some file =>
        match file.curves.find? (fun c => c.id == channelId) with
        | none => st
        | some channel =>
          (st.1 ++ [synthKey "ungrouped" fileId channelId],
            st.2 ++ [{ channel := channel, file := file, groupId := "ungrouped" }])
  | _ => st

/-- The `allChannels` memo of `CurvePlot.tsx`: expand the channel refs of
active groups into `(channel, file, groupId)` tuples, then (when any
tree selection exists) add tree-selected channels as `"ungrouped"`
tuples. -/
def allChannels (files : List ImportedFile) (groups : List ChannelGroup)
    (treeSelection : List String) : List RenderTuple :=
  let st1 := groups.foldl (groupStep files)
    (([] : List String), ([] : List RenderTuple))
  let st2 := if treeSelection.length > 0 then
    treeSelection.foldl (treeSelStep files) st1
  else st1
  st2.2

/-- The group of the resolver counterexample: active, holding the single
reference `(f1, c1)`. -/
def exampleGroup : ChannelGroup :=
  { id := "g1", isActive := true, channels := [{ fileId := "f1", channelId := "c1" }] }

/-! ## Point decoder (`xmlParser.ts`, `parsePoints`) -/

/-- The regex whitespace class `\s` (embedded as Lean's character
whitespace test; the point strings use plain spaces). -/
def jsWhitespace (c : Char) : Bool := c.isWhitespace

/-- One attempt of the regex `x="([^"]+)"\s+y="([^"]+)"` anchored at the
start of `cs`: literal `x="`, a nonempty greedy non-quote capture, a
closing quote, nonempty whitespace, literal `y="`, a second capture and its
closing quote.  Returns the two captures and the remainder after the
match.  The greedy parts are deterministic: a `[^"]+` run can only be
followed by `"` at its maximal end, and a `\s+` run only by a
non-whitespace character, so no backtracking alternative exists. -/
def tryMatchAt (cs : List Char) : Option (List Char × List Char × List Char) :=
  match cs with
  | 'x' :: '=' :: '"' :: r0 =>
    if r0.takeWhile (fun c => c != '"') = [] then none
    else
      match r0.dropWhile (fun c => c != '"') with
      | '"' :: r2 =>
        if r2.takeWhile jsWhitespace = [] then none
        else
          match r2.dropWhile jsWhitespace with
          | 'y' :: '=' :: '"' :: r4 =>
            if r4.takeWhile (fun c => c != '"') = [] then none
            else
              match r4.dropWhile (fun c => c != '"') with
              | '"' :: r6 =>
                some (r0.takeWhile (fun c => c != '"'),
                  r4.takeWhile (fun c => c != '"'), r6)
              | _ => none
          | _ => none
      | _ => none
  | _ => none

/-- All successive matches of the global regex over the input, leftmost
and non-overlapping, as `exec` in a loop produces them. -/
def allMatches : List Char → List (List Char × List Char)
  | [] => []
  | c :: cs =>
    match h : tryMatchAt (c :: cs) with
    | some (a, b, rest) => (a, b) :: allMatches rest
    | none => allMatches cs
  termination_by l => l.length
  decreasing_by
  · unfold tryMatchAt at h
    split at h
    case h_2 => exact absurd h (by simp)
    next r0 heq0 =>
      split at h
      · exact absurd h (by simp)
      · split at h
        case h_2 => exact absurd h (by simp)
        next r2 heq2 =>
          split at h
          · exact absurd h (by simp)
          · split at h
            case h_2 => exact absurd h (by simp)
            next r4 heq4 =>
              split at h
              · exact absurd h (by simp)
              · split at h
                case h_2 => exact absurd h (by simp)
                next r6 heq6 =>
                  have e2 : r2.length + 1 ≤ r0.length := by
                    have hs := (List.dropWhile_sublist (l := r0)
                      (fun c => c != '"')).length_le
                    rw [heq2] at hs
                    simpa using hs
                  have e4 : r4.length + 3 ≤ r2.length := by
                    have hs := (List.dropWhile_sublist (l := r2) jsWhitespace).length_le
                    rw [heq4] at hs
                    simpa using hs
                  have e6 : r6.length + 1 ≤ r4.length := by
                    have hs := (List.dropWhile_sublist (l := r4)
                      (fun c => c != '"')).length_le
                    rw [heq6] at hs
                    simpa using hs
                  have e0 : cs.length + 1 = r0.length + 3 := by
                    simpa using congrArg List.length heq0
                  simp only [Option.some.injEq, Prod.mk.injEq] at h
                  obtain ⟨-, -, hrest⟩ := h
                  rw [← hrest]
                  simp only [List.length_cons]
                  omega
  · simp only [List.length_cons]
    omega

/-- Digit-run consumer: accumulated value, number of digits consumed, and
the remainder. -/
def takeDigitsAcc (acc cnt : ℕ) : List Char → ℕ × ℕ × List Char
  | [] => (acc, cnt, [])
  | c :: rest =>
    if c.isDigit then takeDigitsAcc (acc * 10 + (c.toNat - 48)) (cnt + 1) rest
    else (acc, cnt, c :: rest)

/-- The numeric conversion `+match[k]` (unary plus) on a captured string,
for plain decimal literals `[±]digits[.digits][(e|E)[±]digits]`, with
exact rational semantics.  JS additionally trims whitespace and accepts
hex/`Infinity`, and yields `NaN` on anything else; those cases cannot
arise from well-formed numeric captures and are embedded as `0`. -/
def jsStrToNum (s : String) : ℚ :=
  match s.data with
  | '-' :: rest => -(jsStrToNumUnsigned rest)
  | '+' :: rest => jsStrToNumUnsigned rest
  | rest => jsStrToNumUnsigned rest
where
  /-- Unsigned part of `jsStrToNum`. -/
  jsStrToNumUnsigned (cs : List Char) : ℚ :=
    match takeDigitsAcc 0 0 cs with
    | (ip, ic, cs1) =>
      match (match cs1 with
        | '.' :: rest => takeDigitsAcc 0 0 rest
        | _ => (0, 0, cs1)) with
      | (fp, fc, cs2) =>
        match (match cs2 with
          | 'e' :: '-' :: r2 | 'E' :: '-' :: r2 =>
            match takeDigitsAcc 0 0 r2 with
            | (e, _, r3) => (-(e : ℤ), r3)
          | 'e' :: '+' :: r2 | 'E' :: '+' :: r2 =>
            match takeDigitsAcc 0 0 r2 with
            | (e, _, r3) => ((e : ℤ), r3)
          | 'e' :: r2 | 'E' :: r2 =>
            match takeDigitsAcc 0 0 r2 with
            | (e, _, r3) => ((e : ℤ), r3)
          | _ => ((0 : ℤ), cs2)) with
        | (ex, cs3) =>
          if ic = 0 ∧ fc = 0 then 0
          else if ¬ cs3.isEmpty then 0
          else ((ip : ℚ) + (fp : ℚ) / (10 : ℚ) ^ fc) * (10 : ℚ) ^ ex

/-- The extraction loop of `parsePoints`:
`while ((match = regex.exec(raw)) !== null && i < noOfPoints)` — stop at
the declared capacity or when no further match exists, converting each
capture pair with unary plus. -/
def extractLoop : ℕ → List Char → List (ℚ × ℚ)
  | 0, _ => []
  | _, [] => []
  | cap + 1, c :: cs =>
    match h : tryMatchAt (c :: cs) with
    | some (a, b, rest) =>
      (jsStrToNum (String.mk a), jsStrToNum (String.mk b)) :: extractLoop cap rest
    | none => extractLoop (cap + 1) cs
  termination_by _ l => l.length
  decreasing_by
  · unfold tryMatchAt at h
    split at h
    case h_2 => exact absurd h (by simp)
    next r0 heq0 =>
      split at h
      · exact absurd h (by simp)
      · split at h
        case h_2 => exact absurd h (by simp)
        next r2 heq2 =>
          split at h
          · exact absurd h (by simp)
          · split at h
            case h_2 => exact absurd h (by simp)
            next r4 heq4 =>
              split at h
              · exact absurd h (by simp)
              · split at h
                case h_2 => exact absurd h (by simp)
                next r6 heq6 =>
                  have e2 : r2.length + 1 ≤ r0.length := by
                    have hs := (List.dropWhile_sublist (l := r0)
                      (fun c => c != '"')).length_le
                    rw [heq2] at hs
                    simpa using hs
                  have e4 : r4.length + 3 ≤ r2.length := by
                    have hs := (List.dropWhile_sublist (l := r2) jsWhitespace).length_le
                    rw [heq4] at hs
                    simpa using hs
                  have e6 : r6.length + 1 ≤ r4.length := by
                    have hs := (List.dropWhile_sublist (l := r4)
                      (fun c => c != '"')).length_le
                    rw [heq6] at hs
                    simpa using hs
                  have e0 : cs.length + 1 = r0.length + 3 := by
                    simpa using congrArg List.length heq0
                  simp only [Option.some.injEq, Prod.mk.injEq] at h
                  obtain ⟨-, -, hrest⟩ := h
                  rw [← hrest]
                  simp only [List.length_cons]
                  omega
  · simp only [List.length_cons]
    omega

/-- Return record of `parsePoints` (`Float64Array`s embedded as lists). -/
structure ParsedSeries where
  x : List ℚ
  y : List ℚ
  count : ℕ
  deriving DecidableEq

/-- `parsePoints` (`xmlParser.ts`): a declared count of 0 or an empty raw
string yields the empty series; otherwise extract up to `noOfPoints`
pairs.  The source preallocates arrays of the declared size and slices
them down to the extracted count; net effect: the arrays hold exactly the
extracted pairs. -/
def parsePoints (raw : String) (noOfPoints : ℕ) : ParsedSeries :=
  if noOfPoints = 0 then { x := [], y := [], count := 0 }
  else if raw = "" then { x := [], y := [], count := 0 }
  else
    { x := (extractLoop noOfPoints raw.data).map Prod.fst
      y := (extractLoop noOfPoints raw.data).map Prod.snd
      count := (extractLoop noOfPoints raw.data).length }

/-! ## LTTB downsampler (`lttbDownsample`, `part_004`) -/

/-- `bucketSize = (dataLength - 2) / (threshold - 2)` (exact rational in
place of the source's binary64 quotient). -/
def lttbBucketSize (N t : ℕ) : ℚ := ((N : ℚ) - 2) / ((t : ℚ) - 2)

/-- `rangeStart = Math.floor((i + 1) * bucketSize) + 1`.  The floor is
nonnegative in the downsampling branch, so the `ℕ` conversion is exact. -/
def lttbRangeStart (N t i : ℕ) : ℕ :=
  (⌊((i : ℚ) + 1) * lttbBucketSize N t⌋).toNat + 1

/-- `rangeEnd = Math.min(Math.floor((i + 2) * bucketSize) + 1, dataLength)`. -/
def lttbRangeEnd (N t i : ℕ) : ℕ :=
  min ((⌊((i : ℚ) + 2) * lttbBucketSize N t⌋).toNat + 1) N

/-- The next bucket's centroid `(avgX, avgY)`, `(0, 0)` when that bucket
is empty (`nextBucketLen ≤ 0`, computed in `ℤ` since the raw difference
can be negative). -/
def lttbAvg (x y : List ℚ) (N t i : ℕ) : ℚ × ℚ :=
  let nbStart := (⌊((i : ℚ) + 2) * lttbBucketSize N t⌋).toNat + 1
  let nbEnd := min ((⌊((i : ℚ) + 3) * lttbBucketSize N t⌋).toNat + 1) N
  let nbLen : ℤ := (min nbEnd N : ℤ) - (nbStart : ℤ)
  if 0 < nbLen then
    (((List.range' nbStart (min nbEnd N - nbStart)).map (fun j => x.getD j 0)).sum
        / (nbLen : ℚ),
      ((List.range' nbStart (min nbEnd N - nbStart)).map (fun j => y.getD j 0)).sum
        / (nbLen : ℚ))
  else (0, 0)

/-- The inner argmax: walk `j` from `rangeStart` to `rangeEnd − 1`,
keeping the first index whose triangle area strictly exceeds the best so
far; `maxArea` starts at `−1` and `bestIndex` at `rangeStart`. -/
def lttbBestIndex (x y : List ℚ) (prevIndex : ℕ) (avgX avgY : ℚ)
    (rangeStart rangeEnd : ℕ) : ℕ :=
  ((List.range' rangeStart (rangeEnd - rangeStart)).foldl
    (fun st j =>
      if |(x.getD prevIndex 0 - avgX) * (y.getD j 0 - y.getD prevIndex 0) -
          (x.getD prevIndex 0 - x.getD j 0) * (avgY - y.getD prevIndex 0)| > st.2
      then (j, |(x.getD prevIndex 0 - avgX) * (y.getD j 0 - y.getD prevIndex 0) -
          (x.getD prevIndex 0 - x.getD j 0) * (avgY - y.getD prevIndex 0)|)
      else st)
    (rangeStart, (-1 : ℚ))).1

/-- The `for (i = 0; i < threshold - 2; i++)` selection loop, one best
index per interior bucket; `i` is the loop counter and the last argument
the number of remaining iterations. -/
def lttbMids (x y : List ℚ) (N t : ℕ) : ℕ → ℕ → ℕ → List ℕ
  | _, _, 0 => []
  | i, prev, k + 1 =>
    lttbBestIndex x y prev (lttbAvg x y N t i).1 (lttbAvg x y N t i).2
        (lttbRangeStart N t i) (lttbRangeEnd N t i) ::
      lttbMids x y N t (i + 1)
        (lttbBestIndex x y prev (lttbAvg x y N t i).1 (lttbAvg x y N t i).2
          (lttbRangeStart N t i) (lttbRangeEnd N t i)) k

/-- `lttbDownsample`: pass through all indices when the threshold is at
least the length or at most 2, otherwise the first index, one argmax per
interior bucket, and the last index. -/
def lttbDownsample (x y : List ℚ) (threshold : ℤ) : List ℕ :=
  let dataLength := x.length
  if threshold ≥ (dataLength : ℤ) ∨ threshold ≤ 2 then List.range dataLength
  else
    0 :: (lttbMids x y dataLength threshold.toNat 0 0 (threshold.toNat - 2) ++
      [dataLength - 1])

/-! ### Invariant of the resolver folds -/

/-- The seen-key set mirrors the synthetic keys of the pushed tuples, and
never holds a key twice. -/
def seenInv (st : ResolverState) : Prop :=
  st.1 = st.2.map tupleKey ∧ st.1.Nodup

/-! ### Fold lemmas for min/max aggregation -/

theorem foldl_min_le_init (g : CurveChannel → ℚ) :
    ∀ (l : List CurveChannel) (a : ℚ),
      l.foldl (fun acc ch => min acc (g ch)) a ≤ a := by
  intro l
  induction l with
  | nil => intro a; simp
  | cons x xs ih =>
    intro a
    calc xs.foldl (fun acc ch => min acc (g ch)) (min a (g x)) ≤ min a (g x) := ih _
      _ ≤ a := min_le_left _ _

theorem foldl_min_le_mem (g : CurveChannel → ℚ) :
    ∀ (l : List CurveChannel) (a : ℚ) (ch : CurveChannel), ch ∈ l →
      l.foldl (fun acc c => min acc (g c)) a ≤ g ch := by
  intro l
  induction l with
  | nil => intro a ch h; simp at h
  | cons x xs ih =>
    intro a ch h
    rcases List.mem_cons.mp h with rfl | hmem
    · calc xs.foldl (fun acc c => min acc (g c)) (min a (g ch)) ≤ min a (g ch) :=
          foldl_min_le_init g xs _
        _ ≤ g ch := min_le_right _ _
    · exact ih _ ch hmem

theorem foldl_min_attained (g : CurveChannel → ℚ) :
    ∀ (l : List CurveChannel) (a : ℚ),
      l.foldl (fun acc c => min acc (g c)) a = a ∨
        ∃ ch ∈ l, l.foldl (fun acc c => min acc (g c)) a = g ch := by
  intro l
  induction l with
  | nil => intro a; left; rfl
  | cons x xs ih =>
    intro a
    rcases ih (min a (g x)) with h | ⟨ch, hm, h⟩
    · rcases min_cases a (g x) with ⟨he, _⟩ | ⟨he, _⟩
      · left; rw [List.foldl_cons, h, he]
      · right; exact ⟨x, List.mem_cons_self x xs, by rw [List.foldl_cons, h, he]⟩
    · right; exact ⟨ch, List.mem_cons_of_mem x hm, h⟩

theorem foldl_max_init_le (g : CurveChannel → ℚ) :
    ∀ (l : List CurveChannel) (a : ℚ),
      a ≤ l.foldl (fun acc ch => max acc (g ch)) a := by
  intro l
  induction l with
  | nil => intro a; simp
  | cons x xs ih =>
    intro a
    calc a ≤ max a (g x) := le_max_left _ _
      _ ≤ xs.foldl (fun acc ch => max acc (g ch)) (max a (g x)) := ih _

theorem foldl_mem_le_max (g : CurveChannel → ℚ) :
    ∀ (l : List CurveChannel) (a : ℚ) (ch : CurveChannel), ch ∈ l →
      g ch ≤ l.foldl (fun acc c => max acc (g c)) a := by
  intro l
  induction l with
  | nil => intro a ch h; simp at h
  | cons x xs ih =>
    intro a ch h
    rcases List.mem_cons.mp h with rfl | hmem
    · calc g ch ≤ max a (g ch) := le_max_right _ _
        _ ≤ xs.foldl (fun acc c => max acc (g c)) (max a (g ch)) :=
          foldl_max_init_le g xs _
    · exact ih _ ch hmem

theorem foldl_max_attained (g : CurveChannel → ℚ) :
    ∀ (l : List CurveChannel) (a : ℚ),
      l.foldl (fun acc c => max acc (g c)) a = a ∨
        ∃ ch ∈ l, l.foldl (fun acc c => max acc (g c)) a = g ch := by
  intro l
  induction l with
  | nil => intro a; left; rfl
  | cons x xs ih =>
    intro a
    rcases ih (max a (g x)) with h | ⟨ch, hm, h⟩
    · rcases max_cases a (g x) with ⟨he, _⟩ | ⟨he, _⟩
      · left; rw [List.foldl_cons, h, he]
      · right; exact ⟨x, List.mem_cons_self x xs, by rw [List.foldl_cons, h, he]⟩
    · right; exact ⟨ch, List.mem_cons_of_mem x hm, h⟩

/-- Congruence: a `min` fold that reads only the coordinate system is
unchanged when the channel lists agree on their coordinate systems. -/
theorem foldl_min_cs_congr (g : CoordSystem → ℚ) :
    ∀ (l₁ l₂ : List CurveChannel),
      l₁.map (·.coordSystem) = l₂.map (·.coordSystem) → ∀ a : ℚ,
      l₁.foldl (fun acc ch => min acc (g ch.coordSystem)) a =
        l₂.foldl (fun acc ch => min acc (g ch.coordSystem)) a := by
  intro l₁
  induction l₁ with
  | nil =>
    intro l₂ h a
    cases l₂ with
    | nil => rfl
    | cons b bs => simp at h
  | cons x xs ih =>
    intro l₂ h a
    cases l₂ with
    | nil => simp at h
    | cons b bs =>
      simp only [List.map_cons, List.cons.injEq] at h
      obtain ⟨hx, hmap⟩ := h
      simp only [List.foldl_cons, hx]
      exact ih bs hmap _

/-- Congruence for the `max` fold, as in `foldl_min_cs_congr`. -/
theorem foldl_max_cs_congr (g : CoordSystem → ℚ) :
    ∀ (l₁ l₂ : List CurveChannel),
      l₁.map (·.coordSystem) = l₂.map (·.coordSystem) → ∀ a : ℚ,
      l₁.foldl (fun acc ch => max acc (g ch.coordSystem)) a =
        l₂.foldl (fun acc ch => max acc (g ch.coordSystem)) a := by
  intro l₁
  induction l₁ with
  | nil =>
    intro l₂ h a
    cases l₂ with
    | nil => rfl
    | cons b bs => simp at h
  | cons x xs ih =>
    intro l₂ h a
    cases l₂ with
    | nil => simp at h
    | cons b bs =>
      simp only [List.map_cons, List.cons.injEq] at h
      obtain ⟨hx, hmap⟩ := h
      simp only [List.foldl_cons, hx]
      exact ih bs hmap _

/-- A fold accumulating two running sums equals the pair of sums. -/
theorem foldl_pair_sums (f g : ℚ × ℚ → ℚ) :
    ∀ (l : List (ℚ × ℚ)) (a b : ℚ),
      l.foldl (fun acc p => (acc.1 + f p, acc.2 + g p)) (a, b) =
        (a + (l.map f).sum, b + (l.map g).sum) := by
  intro l
  induction l with
  | nil => intro a b; simp
  | cons x xs ih =>
    intro a b
    simp only [List.foldl_cons, List.map_cons, List.sum_cons, ih]
    rw [Prod.mk.injEq]
    constructor <;> ring

/-- A fold accumulating three running sums equals the triple of sums. -/
theorem foldl_triple_sums (f g h : ℚ × ℚ → ℚ) :
    ∀ (l : List (ℚ × ℚ)) (a b c : ℚ),
      l.foldl (fun acc p => (acc.1 + f p, acc.2.1 + g p, acc.2.2 + h p)) (a, b, c) =
        (a + (l.map f).sum, b + (l.map g).sum, c + (l.map h).sum) := by
  intro l
  induction l with
  | nil => intro a b c; simp
  | cons x xs ih =>
    intro a b c
    simp only [List.foldl_cons, List.map_cons, List.sum_cons, ih]
    rw [Prod.mk.injEq, Prod.mk.injEq]
    exact ⟨by ring, by ring, by ring⟩

/-- Over equal-length series, mapping an `fst`-only function through the
zip is mapping it through the first series. -/
theorem map_fst_zip_eq (f : ℚ → ℚ) (xs ys : List ℚ) (h : xs.length = ys.length) :
    (xs.zip ys).map (fun p => f p.1) = xs.map f := by
  have : (xs.zip ys).map (fun p => f p.1) = ((xs.zip ys).map Prod.fst).map f := by
    rw [List.map_map]; rfl
  rw [this, List.map_fst_zip xs ys (le_of_eq h)]

/-- Over equal-length series, mapping an `snd`-only function through the
zip is mapping it through the second series. -/
theorem map_snd_zip_eq (f : ℚ → ℚ) (xs ys : List ℚ) (h : xs.length = ys.length) :
    (xs.zip ys).map (fun p => f p.2) = ys.map f := by
  have : (xs.zip ys).map (fun p => f p.2) = ((xs.zip ys).map Prod.snd).map f := by
    rw [List.map_map]; rfl
  rw [this, List.map_snd_zip xs ys h.ge]

theorem addToBin_length (bins : List HistBin) (idx vi : ℕ) :
    (addToBin bins idx vi).length = bins.length := by
  unfold addToBin
  match h : bins.get? idx with
  | none => rfl
  | some b => simp [List.length_set]

theorem fillBins_length (f : ℚ → ℕ) :
    ∀ (pairs : List (ℕ × ℚ)) (bins : List HistBin),
      (fillBins bins pairs f).length = bins.length := by
  intro pairs
  induction pairs with
  | nil => intro bins; rfl
  | cons p rest ih =>
    intro bins
    show (fillBins (addToBin bins (f p.2) p.1) rest f).length = bins.length
    rw [ih, addToBin_length]

/-- The filling loop sends each indexed value to the bin its clamped index
selects: bin `j` ends with exactly the input indices whose value maps to
`j`, appended in input order, and its count grows by their number. -/
theorem fillBins_get? (f : ℚ → ℕ) :
    ∀ (pairs : List (ℕ × ℚ)) (bins : List HistBin) (j : ℕ) (b : HistBin),
      bins.get? j = some b → (∀ p ∈ pairs, f p.2 < bins.length) →
      (fillBins bins pairs f).get? j =
        some { b with
          count := b.count + (pairs.filter (fun p => f p.2 == j)).length
          indices := b.indices ++ (pairs.filter (fun p => f p.2 == j)).map Prod.fst } := by
  intro pairs
  induction pairs with
  | nil =>
    intro bins j b hb _
    simpa using hb
  | cons p rest ih =>
    intro bins j b hb hf
    have hidx : f p.2 < bins.length := hf p (List.mem_cons_self p rest)
    obtain ⟨bidx, hbidx⟩ : ∃ x, bins.get? (f p.2) = some x := by
      rw [List.get?_eq_get hidx]; exact ⟨_, rfl⟩
    have hstep : fillBins bins (p :: rest) f =
        fillBins (bins.set (f p.2)
          { bidx with count := bidx.count + 1, indices := bidx.indices ++ [p.1] }) rest f := by
      show fillBins (addToBin bins (f p.2) p.1) rest f = _
      rw [addToBin, hbidx]
    rw [hstep]
    have hlen' : ∀ q ∈ rest, f q.2 <
        (bins.set (f p.2)
          { bidx with count := bidx.count + 1, indices := bidx.indices ++ [p.1] }).length := by
      intro q hq
      rw [List.length_set]
      exact hf q (List.mem_cons_of_mem p hq)
    by_cases hj : f p.2 = j
    · subst hj
      have hbb : b = bidx := by
        rw [hbidx] at hb
        exact (Option.some.inj hb).symm
      subst hbb
      have hget : (bins.set (f p.2)
          { b with count := b.count + 1, indices := b.indices ++ [p.1] }).get? (f p.2) =
          some { b with count := b.count + 1, indices := b.indices ++ [p.1] } :=
        List.get?_set_eq_of_lt _ hidx
      rw [ih _ _ _ hget hlen']
      refine congrArg some ?_
      rw [List.filter_cons]
      simp only [beq_self_eq_true, if_pos, List.length_cons, List.map_cons]
      simp only [HistBin.mk.injEq]
      refine ⟨trivial, trivial, by omega, by simp⟩
    · have hget : (bins.set (f p.2)
          { bidx with count := bidx.count + 1, indices := bidx.indices ++ [p.1] }).get? j =
          some b := by
        rw [List.get?_set_ne _ _ hj, hb]
      rw [ih _ j b hget hlen']
      have hfil : (p :: rest).filter (fun q => f q.2 == j) =
          rest.filter (fun q => f q.2 == j) := by
        rw [List.filter_cons]
        simp [hj]
      rw [hfil]

theorem sum_map_add_nat {α : Type} (f g : α → ℕ) :
    ∀ l : List α, (l.map (fun x => f x + g x)).sum = (l.map f).sum + (l.map g).sum := by
  intro l
  induction l with
  | nil => rfl
  | cons x rest ih =>
    simp only [List.map_cons, List.sum_cons, ih]
    omega

/-- Summing the point indicator of `m` over `0, …, B−1` gives one hit. -/
theorem sum_indicator_range (m B : ℕ) (h : m < B) :
    ((List.range B).map (fun j => if m = j then (1 : ℕ) else 0)).sum = 1 := by
  induction B with
  | zero => omega
  | succ B ih =>
    rw [List.range_succ, List.map_append, List.sum_append]
    by_cases hm : m = B
    · subst hm
      have h0 : ((List.range m).map (fun j => if m = j then (1 : ℕ) else 0)).sum = 0 := by
        apply List.sum_eq_zero
        intro x hx
        rcases List.mem_map.mp hx with ⟨j, hj, rfl⟩
        have hjm : j < m := List.mem_range.mp hj
        simp [Nat.ne_of_gt hjm]
      simp [h0]
    · have hlt : m < B := by omega
      rw [ih hlt]
      simp [hm]

/-- Splitting a list by the value of a `ℕ`-valued classifier below `B`
partitions it: the filtered lengths over `0, …, B−1` sum to the length. -/
theorem sum_filter_lengths {α : Type} (f : α → ℕ) (B : ℕ) :
    ∀ l : List α, (∀ x ∈ l, f x < B) →
      ((List.range B).map (fun j => (l.filter (fun x => f x == j)).length)).sum
        = l.length := by
  intro l
  induction l with
  | nil => intro _; simp
  | cons x rest ih =>
    intro hf
    have hx : f x < B := hf x (List.mem_cons_self x rest)
    have hrest := ih (fun y hy => hf y (List.mem_cons_of_mem x hy))
    have hmap : (List.range B).map
        (fun j => ((x :: rest).filter (fun y => f y == j)).length) =
        (List.range B).map
          (fun j => (if f x = j then 1 else 0) + (rest.filter (fun y => f y == j)).length) := by
      apply List.map_congr_left
      intro j _
      rw [List.filter_cons]
      by_cases hj : f x = j
      · simp [hj]
        omega
      · simp [hj]
    rw [hmap, sum_map_add_nat, sum_indicator_range (f x) B hx, hrest]
    simp [Nat.add_comm]

theorem binIndex_lt (mn w : ℚ) (binCount : ℕ) (hB : 1 ≤ binCount) (v : ℚ) :
    binIndex mn w binCount v < binCount :=
  lt_of_le_of_lt (Nat.min_le_right _ _) (by omega)

/-- Closed form of the non-degenerate histogram: bin `j` is labeled by its
lower edge `min + j·binWidth` and holds exactly the indices of the values
whose clamped bin index is `j`, in input order. -/
theorem computeHistogramBins_nondegenerate (values : List ℚ) (binCount : ℕ)
    (hne : values ≠ []) (hB : 1 ≤ binCount) (hd : minOf values ≠ maxOf values) :
    computeHistogramBins values binCount =
      (List.range binCount).map (fun j =>
        { label := minOf values +
            (j : ℚ) * ((maxOf values - minOf values) / (binCount : ℚ))
          count := (values.enum.filter (fun p =>
            binIndex (minOf values)
              ((maxOf values - minOf values) / (binCount : ℚ)) binCount p.2 == j)).length
          indices := (values.enum.filter (fun p =>
            binIndex (minOf values)
              ((maxOf values - minOf values) / (binCount : ℚ)) binCount p.2 == j)).map
            Prod.fst } : ℕ → LabeledBin) := by
  simp only [computeHistogramBins, if_neg hne, if_neg hd]
  set mn := minOf values with hmn
  set mx := maxOf values with hmx
  set w := (mx - mn) / (binCount : ℚ) with hw
  set f := binIndex mn w binCount with hf
  set bins0 := (List.range binCount).map (fun i =>
    { start := mn + (i : ℚ) * w
      «end» := mn + ((i : ℚ) + 1) * w
      count := 0
      indices := ([] : List ℕ) } : ℕ → HistBin) with hbins0
  have hlen0 : bins0.length = binCount := by
    rw [hbins0, List.length_map, List.length_range]
  have hfless : ∀ p ∈ values.enum, f p.2 < bins0.length := by
    intro p _
    rw [hlen0]
    exact binIndex_lt mn w binCount hB p.2
  apply List.ext_get?_iff.mpr
  intro n
  by_cases hn : n < binCount
  · have hinit : bins0.get? n = some
        { start := mn + (n : ℚ) * w
          «end» := mn + ((n : ℚ) + 1) * w
          count := 0
          indices := ([] : List ℕ) } := by
      rw [hbins0, List.get?_map, List.get?_range hn]
      rfl
    have hfill := fillBins_get? f values.enum bins0 n _ hinit hfless
    rw [List.get?_map, hfill, List.get?_map, List.get?_range hn]
    simp
  · have h1 : ((fillBins bins0 values.enum f).map (fun b =>
        { label := b.start, count := b.count, indices := b.indices } : HistBin → LabeledBin)).get? n
        = none := by
      apply List.get?_eq_none.mpr
      rw [List.length_map, fillBins_length, hlen0]
      omega
    have h2 : (((List.range binCount).map (fun j =>
        { label := mn + (j : ℚ) * w
          count := (values.enum.filter (fun p => f p.2 == j)).length
          indices := (values.enum.filter (fun p => f p.2 == j)).map Prod.fst } :
          ℕ → LabeledBin))).get? n = none := by
      apply List.get?_eq_none.mpr
      rw [List.length_map, List.length_range]
      omega
    rw [h1, h2]

/-- Degenerate histogram: a nonempty input whose min equals its max yields
one bin, labeled by that value, holding every index — for any bin count. -/
theorem computeHistogramBins_degenerate (values : List ℚ) (binCount : ℕ)
    (hne : values ≠ []) (hd : minOf values = maxOf values) :
    computeHistogramBins values binCount =
      [{ label := minOf values, count := values.length
         indices := List.range values.length }] := by
  rw [computeHistogramBins, if_neg hne, if_pos hd]

/-- Counting the point indicator of `m` over `0, …, B−1` gives one hit. -/
theorem countP_decide_range (m B : ℕ) (h : m < B) :
    (List.range B).countP (fun j => decide (m = j)) = 1 := by
  induction B with
  | zero => omega
  | succ B ih =>
    rw [List.range_succ, List.countP_append]
    by_cases hm : m = B
    · subst hm
      have h0 : (List.range m).countP (fun j => decide (m = j)) = 0 := by
        apply List.countP_eq_zero.mpr
        intro j hj
        have hjm : j < m := List.mem_range.mp hj
        simp [Nat.ne_of_gt hjm]
      simp [h0]
    · have hlt : m < B := by omega
      rw [ih hlt]
      simp [hm]

/-- `pearsonR` is `none` whenever either series has zero variance. -/
theorem pearson_null_of_sumSqDev (xs ys : List ℚ) (hlen : xs.length = ys.length)
    (h : sumSqDev xs = 0 ∨ sumSqDev ys = 0) : pearsonR xs ys = none := by
  by_cases hn : xs.length < 2
  · simp [pearsonR, hn]
  · simp only [pearsonR, if_neg hn]
    rw [foldl_triple_sums
      (fun p => (p.1 - xs.sum / (xs.length : ℚ)) * (p.2 - ys.sum / (xs.length : ℚ)))
      (fun p => (p.1 - xs.sum / (xs.length : ℚ)) * (p.1 - xs.sum / (xs.length : ℚ)))
      (fun p => (p.2 - ys.sum / (xs.length : ℚ)) * (p.2 - ys.sum / (xs.length : ℚ)))
      (xs.zip ys) 0 0 0]
    have e1 : ((xs.zip ys).map
        (fun p => (p.1 - xs.sum / (xs.length : ℚ)) * (p.1 - xs.sum / (xs.length : ℚ)))).sum
        = sumSqDev xs := by
      simpa [sumSqDev] using congrArg List.sum
        (map_fst_zip_eq
          (fun v => (v - xs.sum / (xs.length : ℚ)) * (v - xs.sum / (xs.length : ℚ)))
          xs ys hlen)
    have e2 : ((xs.zip ys).map
        (fun p => (p.2 - ys.sum / (xs.length : ℚ)) * (p.2 - ys.sum / (xs.length : ℚ)))).sum
        = sumSqDev ys := by
      have := congrArg List.sum
        (map_snd_zip_eq
          (fun v => (v - ys.sum / (xs.length : ℚ)) * (v - ys.sum / (xs.length : ℚ)))
          xs ys hlen)
      simpa [sumSqDev, hlen] using this
    simp only [zero_add, e1, e2]
    rcases h with h0 | h0 <;> simp [h0]

/-- `linearRegression` is `none` whenever the x-series has zero variance. -/
theorem linreg_null_of_sumSqDev (xs ys : List ℚ) (hlen : xs.length = ys.length)
    (h : sumSqDev xs = 0) : linearRegression xs ys = none := by
  by_cases hn : xs.length < 2
  · simp [linearRegression, hn]
  · simp only [linearRegression, if_neg hn]
    rw [foldl_pair_sums
      (fun p => (p.1 - xs.sum / (xs.length : ℚ)) * (p.2 - ys.sum / (xs.length : ℚ)))
      (fun p => (p.1 - xs.sum / (xs.length : ℚ)) * (p.1 - xs.sum / (xs.length : ℚ)))
      (xs.zip ys) 0 0]
    have e1 : ((xs.zip ys).map
        (fun p => (p.1 - xs.sum / (xs.length : ℚ)) * (p.1 - xs.sum / (xs.length : ℚ)))).sum
        = sumSqDev xs := by
      simpa [sumSqDev] using congrArg List.sum
        (map_fst_zip_eq
          (fun v => (v - xs.sum / (xs.length : ℚ)) * (v - xs.sum / (xs.length : ℚ)))
          xs ys hlen)
    simp only [zero_add, e1]
    simp [h]

/-- A constant series has zero sum of squared deviations. -/
theorem sumSqDev_of_const (l : List ℚ) (h : ∀ a ∈ l, ∀ b ∈ l, a = b) :
    sumSqDev l = 0 := by
  match l with
  | [] => rfl
  | c :: t =>
    have hall : ∀ x ∈ c :: t, x = c :=
      fun x hx => h x hx c (List.mem_cons_self c t)
    have hsum : (c :: t).sum = (c :: t).length • c := List.sum_eq_card_nsmul _ c hall
    have hmean : (c :: t).sum / ((c :: t).length : ℚ) = c := by
      rw [hsum, nsmul_eq_mul]
      have : ((c :: t).length : ℚ) ≠ 0 := by
        simp [List.length_cons]
        positivity
      field_simp
    apply List.sum_eq_zero
    intro x hx
    rcases List.mem_map.mp hx with ⟨v, hv, rfl⟩
    rw [hmean, hall v hv]
    ring

/-! ### Decoder lemmas -/

/-- A successful match consumes at least one character. -/
theorem tryMatchAt_rest_lt (a b rest : List Char) (cs : List Char)
    (h : tryMatchAt cs = some (a, b, rest)) : rest.length < cs.length := by
  unfold tryMatchAt at h
  split at h
  case h_2 => exact absurd h (by simp)
  next r0 =>
    split at h
    · exact absurd h (by simp)
    · split at h
      case h_2 => exact absurd h (by simp)
      next r2 heq2 =>
        split at h
        · exact absurd h (by simp)
        · split at h
          case h_2 => exact absurd h (by simp)
          next r4 heq4 =>
            split at h
            · exact absurd h (by simp)
            · split at h
              case h_2 => exact absurd h (by simp)
              next r6 heq6 =>
                have e2 : r2.length + 1 ≤ r0.length := by
                  have hs := (List.dropWhile_sublist (l := r0)
                    (fun c => c != '"')).length_le
                  rw [heq2] at hs
                  simpa using hs
                have e4 : r4.length + 3 ≤ r2.length := by
                  have hs := (List.dropWhile_sublist (l := r2) jsWhitespace).length_le
                  rw [heq4] at hs
                  simpa using hs
                have e6 : r6.length + 1 ≤ r4.length := by
                  have hs := (List.dropWhile_sublist (l := r4)
                    (fun c => c != '"')).length_le
                  rw [heq6] at hs
                  simpa using hs
                simp only [Option.some.injEq, Prod.mk.injEq] at h
                obtain ⟨-, -, hrest⟩ := h
                rw [← hrest]
                simp only [List.length_cons]
                omega

/-- The capacity-bounded extraction loop yields exactly the first
`cap` regex matches, converted. -/
theorem extractLoop_eq_take :
    ∀ (n : ℕ) (cs : List Char), cs.length ≤ n → ∀ cap : ℕ,
      extractLoop cap cs = ((allMatches cs).take cap).map
        (fun p => (jsStrToNum (String.mk p.1), jsStrToNum (String.mk p.2))) := by
  intro n
  induction n with
  | zero =>
    intro cs hcs cap
    have hnil : cs = [] := List.length_eq_zero.mp (Nat.le_zero.mp hcs)
    subst hnil
    cases cap <;> simp [extractLoop, allMatches]
  | succ n ih =>
    intro cs hcs cap
    match cs with
    | [] => cases cap <;> simp [extractLoop, allMatches]
    | c :: cs' =>
      cases cap with
      | zero => simp [extractLoop]
      | succ cap' =>
        cases htm : tryMatchAt (c :: cs') with
        | some triple =>
          obtain ⟨a, b, rest⟩ := triple
          have hlt : rest.length < (c :: cs').length :=
            tryMatchAt_rest_lt a b rest _ htm
          have hrest : rest.length ≤ n := by
            simp only [List.length_cons] at hlt hcs
            omega
          rw [extractLoop, allMatches]
          split
          next a1 b1 rest1 heq =>
            rw [htm] at heq
            simp only [Option.some.injEq, Prod.mk.injEq] at heq
            obtain ⟨ha, hb, hr⟩ := heq
            subst ha
            subst hb
            subst hr
            simp only [List.take_succ_cons, List.map_cons]
            rw [ih _ hrest cap']
          next heq =>
            rw [htm] at heq
            cases heq
        | none =>
          have hcs' : cs'.length ≤ n := by
            simp only [List.length_cons] at hcs
            omega
          rw [extractLoop, allMatches]
          split
          next a1 b1 rest1 heq =>
            rw [htm] at heq
            cases heq
          next heq =>
            exact ih cs' hcs' (cap' + 1)

/-! ### Bucket arithmetic for the LTTB downsampler -/

theorem lttb_qbs_pos {N t : ℕ} (h3 : 3 ≤ t) (htN : t < N) :
    (0 : ℚ) < (t : ℚ) - 2 ∧ 1 ≤ lttbBucketSize N t := by
  have ht : (3 : ℚ) ≤ (t : ℚ) := by exact_mod_cast h3
  have htN' : (t : ℚ) < (N : ℚ) := by exact_mod_cast htN
  have hpos : (0 : ℚ) < (t : ℚ) - 2 := by linarith
  refine ⟨hpos, ?_⟩
  rw [lttbBucketSize, le_div_iff hpos]
  linarith

theorem lttb_floor_pos {N t : ℕ} (h3 : 3 ≤ t) (htN : t < N) (i : ℕ) :
    1 ≤ ⌊((i : ℚ) + 1) * lttbBucketSize N t⌋ := by
  obtain ⟨hpos, hbs⟩ := lttb_qbs_pos h3 htN
  have hi1 : (1 : ℚ) ≤ (i : ℚ) + 1 := by
    have : (0 : ℚ) ≤ (i : ℚ) := Nat.cast_nonneg i
    linarith
  have harg : (1 : ℚ) ≤ ((i : ℚ) + 1) * lttbBucketSize N t := by
    calc (1 : ℚ) ≤ lttbBucketSize N t := hbs
      _ = 1 * lttbBucketSize N t := (one_mul _).symm
      _ ≤ ((i : ℚ) + 1) * lttbBucketSize N t :=
        mul_le_mul_of_nonneg_right hi1 (by linarith)
  exact_mod_cast Int.le_floor.mpr (by exact_mod_cast harg)

theorem lttb_floor_le {N t : ℕ} (h3 : 3 ≤ t) (htN : t < N) {i : ℕ}
    (hi : i + 1 ≤ t - 2) :
    ⌊((i : ℚ) + 1) * lttbBucketSize N t⌋ ≤ (N : ℤ) - 2 := by
  obtain ⟨hpos, _⟩ := lttb_qbs_pos h3 htN
  have hcast : ((i : ℚ) + 1) ≤ (t : ℚ) - 2 := by
    have h1 : ((i + 1 : ℕ) : ℚ) ≤ ((t - 2 : ℕ) : ℚ) := by exact_mod_cast hi
    have h2 : ((t - 2 : ℕ) : ℚ) = (t : ℚ) - 2 := by
      have : 2 ≤ t := by omega
      push_cast [Nat.cast_sub this]
      ring
    push_cast at h1
    linarith [h2 ▸ h1]
  have harg : ((i : ℚ) + 1) * lttbBucketSize N t ≤ (N : ℚ) - 2 := by
    calc ((i : ℚ) + 1) * lttbBucketSize N t
        ≤ ((t : ℚ) - 2) * lttbBucketSize N t :=
          mul_le_mul_of_nonneg_right hcast (by
            rw [lttbBucketSize]
            positivity)
      _ = (N : ℚ) - 2 := by
          rw [lttbBucketSize]
          field_simp
  calc ⌊((i : ℚ) + 1) * lttbBucketSize N t⌋ ≤ ⌊(N : ℚ) - 2⌋ :=
        Int.floor_le_floor harg
    _ = (N : ℤ) - 2 := by
        rw [show (N : ℚ) - 2 = (((N : ℤ) - 2 : ℤ) : ℚ) by push_cast; ring,
          Int.floor_intCast]

theorem lttb_floor_succ {N t : ℕ} (h3 : 3 ≤ t) (htN : t < N) (i : ℕ) :
    ⌊((i : ℚ) + 1) * lttbBucketSize N t⌋ + 1 ≤
      ⌊((i : ℚ) + 2) * lttbBucketSize N t⌋ := by
  obtain ⟨hpos, hbs⟩ := lttb_qbs_pos h3 htN
  have harg : ((i : ℚ) + 1) * lttbBucketSize N t + 1 ≤
      ((i : ℚ) + 2) * lttbBucketSize N t := by
    have : ((i : ℚ) + 2) * lttbBucketSize N t =
        ((i : ℚ) + 1) * lttbBucketSize N t + lttbBucketSize N t := by ring
    linarith
  calc ⌊((i : ℚ) + 1) * lttbBucketSize N t⌋ + 1
      = ⌊((i : ℚ) + 1) * lttbBucketSize N t + 1⌋ := (Int.floor_add_one _).symm
    _ ≤ ⌊((i : ℚ) + 2) * lttbBucketSize N t⌋ := Int.floor_le_floor harg

theorem lttb_range_facts {N t : ℕ} (h3 : 3 ≤ t) (htN : t < N) {i : ℕ}
    (hi : i + 1 ≤ t - 2) :
    2 ≤ lttbRangeStart N t i ∧
    lttbRangeStart N t i < lttbRangeEnd N t i ∧
    lttbRangeEnd N t i ≤ N ∧
    lttbRangeEnd N t i ≤ lttbRangeStart N t (i + 1) := by
  have hf1 := lttb_floor_pos h3 htN i
  have hf2 := lttb_floor_le h3 htN hi
  have hf3 := lttb_floor_succ h3 htN i
  have hcast : ((i + 1 : ℕ) : ℚ) + 1 = (i : ℚ) + 2 := by push_cast; ring
  have hstart1 : lttbRangeStart N t (i + 1) =
      (⌊((i : ℚ) + 2) * lttbBucketSize N t⌋).toNat + 1 := by
    rw [lttbRangeStart, hcast]
  rw [lttbRangeStart, lttbRangeEnd, hstart1]
  have hN4 : 4 ≤ N := by omega
  omega

/-- The argmax fold stays inside the candidate range. -/
theorem lttb_best_mem_aux (f : ℕ → ℚ) (rs re : ℕ) :
    ∀ (l : List ℕ) (st : ℕ × ℚ), (∀ j ∈ l, rs ≤ j ∧ j < re) →
      rs ≤ st.1 → st.1 < re →
      rs ≤ (l.foldl (fun st j => if f j > st.2 then (j, f j) else st) st).1 ∧
      (l.foldl (fun st j => if f j > st.2 then (j, f j) else st) st).1 < re := by
  intro l
  induction l with
  | nil => intro st _ h1 h2; exact ⟨h1, h2⟩
  | cons j rest ih =>
    intro st hmem h1 h2
    simp only [List.foldl_cons]
    by_cases hj : f j > st.2
    · rw [if_pos hj]
      exact ih _ (fun j' hj' => hmem j' (List.mem_cons_of_mem _ hj'))
        (hmem j (List.mem_cons_self _ _)).1 (hmem j (List.mem_cons_self _ _)).2
    · rw [if_neg hj]
      exact ih _ (fun j' hj' => hmem j' (List.mem_cons_of_mem _ hj')) h1 h2

theorem lttbBestIndex_mem (x y : List ℚ) (prev : ℕ) (avgX avgY : ℚ)
    (rs re : ℕ) (h : rs < re) :
    rs ≤ lttbBestIndex x y prev avgX avgY rs re ∧
    lttbBestIndex x y prev avgX avgY rs re < re := by
  rw [lttbBestIndex]
  apply lttb_best_mem_aux
  · intro j hj
    have := List.mem_range'_1.mp hj
    omega
  · exact le_refl rs
  · exact h

/-- The selection loop yields one strictly increasing in-range index per
remaining bucket, each at least the current bucket's range start. -/
theorem lttbMids_spec (x y : List ℚ) (N t : ℕ) (h3 : 3 ≤ t) (htN : t < N) :
    ∀ (k i prev : ℕ), i + k ≤ t - 2 →
      (lttbMids x y N t i prev k).length = k ∧
      (∀ e ∈ lttbMids x y N t i prev k, lttbRangeStart N t i ≤ e ∧ e < N) ∧
      (lttbMids x y N t i prev k).Chain' (· < ·) := by
  intro k
  induction k with
  | zero =>
    intro i prev _
    exact ⟨rfl, by intro e he; simp [lttbMids] at he, by simp [lttbMids]⟩
  | succ k ih =>
    intro i prev hik
    have hi1 : i + 1 ≤ t - 2 := by omega
    obtain ⟨h2rs, hrsre, hreN, hrs1⟩ := lttb_range_facts h3 htN hi1
    obtain ⟨hbl, hbu⟩ := lttbBestIndex_mem x y prev (lttbAvg x y N t i).1
      (lttbAvg x y N t i).2 (lttbRangeStart N t i) (lttbRangeEnd N t i) hrsre
    obtain ⟨ihlen, ihmem, ihchain⟩ := ih (i + 1)
      (lttbBestIndex x y prev (lttbAvg x y N t i).1 (lttbAvg x y N t i).2
        (lttbRangeStart N t i) (lttbRangeEnd N t i)) (by omega)
    refine ⟨?_, ?_, ?_⟩
    · simp [lttbMids, ihlen]
    · intro e he
      rcases List.mem_cons.mp he with rfl | hmem
      · exact ⟨hbl, by omega⟩
      · obtain ⟨hel, heu⟩ := ihmem e hmem
        exact ⟨by omega, heu⟩
    · show List.Chain' (· < ·) (_ :: _)
      rw [List.chain'_cons']
      refine ⟨?_, ihchain⟩
      intro b hb
      have hbmem := List.mem_of_mem_head? hb
      obtain ⟨hel, _⟩ := ihmem b hbmem
      omega

theorem foldl_preserve {α β : Type} (P : β → Prop) (f : β → α → β)
    (h : ∀ st a, P st → P (f st a)) :
    ∀ (l : List α) (st : β), P st → P (l.foldl f st) := by
  intro l
  induction l with
  | nil => intro st hst; exact hst
  | cons x xs ih => intro st hst; exact ih _ (h st x hst)

theorem seenInv_push (st : ResolverState) (h : seenInv st)
    (channel : CurveChannel) (file : ImportedFile) (gid fid cid : String)
    (hfid : file.id = fid) (hcid : channel.id = cid)
    (hnot : synthKey gid fid cid ∉ st.1) :
    seenInv (st.1 ++ [synthKey gid fid cid],
      st.2 ++ [{ channel := channel, file := file, groupId := gid }]) := by
  constructor
  · show st.1 ++ [synthKey gid fid cid] = _
    rw [List.map_append, ← h.1]
    simp [tupleKey, synthKey, hfid, hcid]
  · refine List.Nodup.append h.2 (List.nodup_singleton _) ?_
    intro a ha hb
    rcases List.mem_singleton.mp hb with rfl
    exact hnot ha

theorem groupRefStep_inv (files : List ImportedFile) (gid : String) :
    ∀ (st : ResolverState) (ref : ChannelRef), seenInv st →
      seenInv (groupRefStep files gid st ref) := by
  intro st ref h
  rw [groupRefStep]
  split
  · exact h
  next file hfile =>
    split
    · exact h
    next channel hch =>
      split
      · exact h
      next hnot =>
        have hfid : file.id = ref.fileId := by
          have := List.find?_some hfile
          simpa using this
        have hcid : channel.id = ref.channelId := by
          have := List.find?_some hch
          simpa using this
        exact seenInv_push st h channel file gid ref.fileId ref.channelId hfid hcid hnot

theorem groupStep_inv (files : List ImportedFile) :
    ∀ (st : ResolverState) (group : ChannelGroup), seenInv st →
      seenInv (groupStep files st group) := by
  intro st group h
  rw [groupStep]
  split
  · exact foldl_preserve seenInv (groupRefStep files group.id)
      (groupRefStep_inv files group.id) group.channels st h
  · exact h

theorem treeSelStep_inv (files : List ImportedFile) :
    ∀ (st : ResolverState) (selKey : String), seenInv st →
      seenInv (treeSelStep files st selKey) := by
  intro st selKey h
  rw [treeSelStep]
  split
  next fileId channelId rest hsplit =>
    split
    · exact h
    next hnot =>
      split
      · exact h
      next file hfile =>
        split
        · exact h
        next channel hch =>
          have hfid : file.id = fileId := by
            have := List.find?_some hfile
            simpa using this
          have hcid : channel.id = channelId := by
            have := List.find?_some hch
            simpa using this
          exact seenInv_push st h channel file "ungrouped" fileId channelId hfid hcid hnot
  · exact h

/-! ### Walk lemmas for the threshold crossing -/

theorem crossingLoop_none (xs ys : List ℚ) (T : ℚ) :
    ∀ (n i : ℕ), xs.length - i ≤ n → 1 ≤ i →
      (∀ j, i ≤ j → ¬ crossingEventAt ys T xs.length j) →
      crossingLoop xs ys T i = none := by
  intro n
  induction n with
  | zero =>
    intro i hn _ _
    rw [crossingLoop]
    rw [dif_neg]
    omega
  | succ n ih =>
    intro i hn h1 hno
    by_cases h : i < xs.length
    · have hev := hno i (le_refl i)
      have hC : ¬ (ys.getD i 0 = T ∨
          (ys.getD (i - 1) 0 < T ∧ ys.getD i 0 > T) ∨
          (ys.getD (i - 1) 0 > T ∧ ys.getD i 0 < T)) :=
        fun c => hev (Or.inr ⟨h1, h, c⟩)
      have hy : ¬ ys.getD i 0 = T := fun c => hC (Or.inl c)
      have hs : ¬ ((ys.getD (i - 1) 0 < T ∧ ys.getD i 0 > T) ∨
          (ys.getD (i - 1) 0 > T ∧ ys.getD i 0 < T)) :=
        fun c => hC (Or.inr c)
      rw [crossingLoop, dif_pos h, if_neg hy, if_neg hs]
      exact ih (i + 1) (by omega) (by omega) (fun j hj => hno j (by omega))
    · rw [crossingLoop, dif_neg h]

theorem crossingLoop_at_event (xs ys : List ℚ) (T : ℚ) (i : ℕ)
    (h1 : 1 ≤ i) (hev : crossingEventAt ys T xs.length i) :
    crossingLoop xs ys T i = some (crossingValueAt xs ys T i) := by
  rcases hev with ⟨h0, _, _⟩ | ⟨_, hlen, hC⟩
  · omega
  · rw [crossingLoop, dif_pos hlen]
    by_cases hy : ys.getD i 0 = T
    · rw [if_pos hy, crossingValueAt, if_pos (Or.inl hy)]
    · have hs : (ys.getD (i - 1) 0 < T ∧ ys.getD i 0 > T) ∨
          (ys.getD (i - 1) 0 > T ∧ ys.getD i 0 < T) := by
        rcases hC with c | c
        · exact absurd c hy
        · exact c
      rw [if_neg hy, if_pos hs, crossingValueAt,
        if_neg (by push_neg; exact ⟨hy, by omega⟩)]

theorem crossingLoop_reach (xs ys : List ℚ) (T : ℚ) (i₀ : ℕ)
    (h1 : 1 ≤ i₀) (hev : crossingEventAt ys T xs.length i₀)
    (hmin : ∀ j, 1 ≤ j → j < i₀ → ¬ crossingEventAt ys T xs.length j) :
    ∀ (n i : ℕ), i₀ - i ≤ n → 1 ≤ i → i ≤ i₀ →
      crossingLoop xs ys T i = some (crossingValueAt xs ys T i₀) := by
  have hlen : i₀ < xs.length := by
    rcases hev with ⟨h0, _, _⟩ | ⟨_, hlen, _⟩
    · omega
    · exact hlen
  intro n
  induction n with
  | zero =>
    intro i hn hi1 hii
    have : i = i₀ := by omega
    subst this
    exact crossingLoop_at_event xs ys T i hi1 hev
  | succ n ih =>
    intro i hn hi1 hii
    rcases Nat.eq_or_lt_of_le hii with heq | hlt
    · subst heq
      exact crossingLoop_at_event xs ys T i hi1 hev
    · have hno := hmin i hi1 hlt
      have hC : ¬ (ys.getD i 0 = T ∨
          (ys.getD (i - 1) 0 < T ∧ ys.getD i 0 > T) ∨
          (ys.getD (i - 1) 0 > T ∧ ys.getD i 0 < T)) :=
        fun c => hno (Or.inr ⟨hi1, by omega, c⟩)
      have hy : ¬ ys.getD i 0 = T := fun c => hC (Or.inl c)
      have hs : ¬ ((ys.getD (i - 1) 0 < T ∧ ys.getD i 0 > T) ∨
          (ys.getD (i - 1) 0 > T ∧ ys.getD i 0 < T)) :=
        fun c => hC (Or.inr c)
      rw [crossingLoop, dif_pos (by omega : i < xs.length), if_neg hy, if_neg hs]
      exact ih (i + 1) (by omega) (by omega) (by omega)

/-! ### Batch decomposition of the sync fold -/

theorem calc_errors_decomp (mode : SyncMode) (masterYAxis activeXAxis : String)
    (threshold : ℚ) :
    ∀ (files : List ImportedFile) (acc : SyncCalcResult),
      (files.foldl (syncFileStep mode masterYAxis activeXAxis threshold) acc).errors =
        acc.errors ++
          (files.map (fileSyncErrors mode masterYAxis activeXAxis threshold)).join := by
  intro files
  induction files with
  | nil => intro acc; simp
  | cons f rest ih =>
    intro acc
    rw [List.foldl_cons, ih, List.map_cons, List.join]
    show (syncFileStep mode masterYAxis activeXAxis threshold acc f).errors ++ _ = _
    rw [syncFileStep]
    simp [List.append_assoc]

theorem calc_offsets_not_mem (mode : SyncMode) (masterYAxis activeXAxis : String)
    (threshold : ℚ) :
    ∀ (files : List ImportedFile) (acc : SyncCalcResult) (k : String),
      k ∉ files.map (·.id) →
      (files.foldl (syncFileStep mode masterYAxis activeXAxis threshold) acc).offsets k =
        acc.offsets k := by
  intro files
  induction files with
  | nil => intro acc k _; rfl
  | cons f rest ih =>
    intro acc k hk
    rw [List.map_cons] at hk
    rw [List.foldl_cons, ih _ k (fun c => hk (List.mem_cons_of_mem _ c))]
    show updateOffsets acc.offsets f.id _ k = acc.offsets k
    rw [updateOffsets]
    refine if_neg (fun c => hk ?_)
    rw [c]
    exact List.mem_cons_self _ _

theorem calc_offsets_mem (mode : SyncMode) (masterYAxis activeXAxis : String)
    (threshold : ℚ) :
    ∀ (files : List ImportedFile) (acc : SyncCalcResult) (file : ImportedFile),
      file ∈ files → (files.map (·.id)).Nodup →
      (files.foldl (syncFileStep mode masterYAxis activeXAxis threshold) acc).offsets
          file.id =
        some (fileSyncOffset mode masterYAxis activeXAxis threshold file) := by
  intro files
  induction files with
  | nil => intro acc file hf _; simp at hf
  | cons g rest ih =>
    intro acc file hf hnd
    rw [List.map_cons, List.nodup_cons] at hnd
    rcases List.mem_cons.mp hf with rfl | hmem
    · rw [List.foldl_cons,
        calc_offsets_not_mem mode masterYAxis activeXAxis threshold rest _ _ hnd.1]
      show updateOffsets acc.offsets file.id _ file.id = _
      rw [updateOffsets, if_pos rfl]
    · exact ih _ file hmem hnd.2

/-! ## Claim theorems -/

/-- C8: `mapValueStatus` maps 0 to 501, 1 to 256, and 2 to 502, returns
every other value unchanged (in particular `mapValueStatus 503 = 503`), and
this mapping is applied to the status of every parsed set value and actual
value at parse time. -/
theorem c8_status_normalization :
    mapValueStatus 0 = 501 ∧ mapValueStatus 1 = 256 ∧ mapValueStatus 2 = 502 ∧
    mapValueStatus 503 = 503 ∧
    (∀ n : ℤ, n ≠ 0 → n ≠ 1 → n ≠ 2 → mapValueStatus n = n) ∧
    (∀ vals : List RawActSetValue,
      (parseSetValues vals).map (·.status) =
        vals.map (fun v => mapValueStatus v.status) ∧
      (parseActualValues vals).map (·.status) =
        vals.map (fun v => mapValueStatus v.status)) := by
  refine ⟨rfl, rfl, rfl, rfl, ?_, ?_⟩
  · intro n h0 h1 h2
    simp [mapValueStatus, h0, h1, h2]
  · intro vals
    constructor <;> simp [parseSetValues, parseActualValues]

/-- Witness for C8: the pass-through branch evaluated at the concrete raw
code 503 via the claim theorem. -/
theorem c8_status_normalization_witness : mapValueStatus 503 = 503 :=
  c8_status_normalization.2.2.2.2.1 503 (by decide) (by decide) (by decide)

/-- C9: `aggregateAxisRanges` returns the min of the channels' declared
`CoordSystem` minima and the max of their declared maxima for both axes
(reads only the declared bounds, never the raw point arrays), the example
`[{minX:0,maxX:10},{minX:-5,maxX:8}]` yields `minX = -5`, `maxX = 10`, and
the empty list yields exactly `{minX:0, maxX:1, minY:0, maxY:1}`. -/
theorem c9_aggregate_axis_ranges :
    (aggregateAxisRanges [] = { minX := 0, maxX := 1, minY := 0, maxY := 1 }) ∧
    (∀ channels : List CurveChannel, channels ≠ [] →
      (∀ ch ∈ channels,
        (aggregateAxisRanges channels).minX ≤ ch.coordSystem.minX ∧
        ch.coordSystem.maxX ≤ (aggregateAxisRanges channels).maxX ∧
        (aggregateAxisRanges channels).minY ≤ ch.coordSystem.minY ∧
        ch.coordSystem.maxY ≤ (aggregateAxisRanges channels).maxY) ∧
      (∃ ch ∈ channels, (aggregateAxisRanges channels).minX = ch.coordSystem.minX) ∧
      (∃ ch ∈ channels, (aggregateAxisRanges channels).maxX = ch.coordSystem.maxX) ∧
      (∃ ch ∈ channels, (aggregateAxisRanges channels).minY = ch.coordSystem.minY) ∧
      (∃ ch ∈ channels, (aggregateAxisRanges channels).maxY = ch.coordSystem.maxY)) ∧
    (∀ c₁ c₂ : List CurveChannel,
      c₁.map (·.coordSystem) = c₂.map (·.coordSystem) →
      aggregateAxisRanges c₁ = aggregateAxisRanges c₂) ∧
    ((aggregateAxisRanges [exampleChannelA, exampleChannelB]).minX = -5 ∧
      (aggregateAxisRanges [exampleChannelA, exampleChannelB]).maxX = 10) := by
  refine ⟨rfl, ?_, ?_, by decide⟩
  · intro channels hne
    match channels with
    | [] => exact absurd rfl hne
    | c :: rest =>
      refine ⟨?_, ?_, ?_, ?_, ?_⟩
      · intro ch hch
        refine ⟨?_, ?_, ?_, ?_⟩ <;>
          simp only [aggregateAxisRanges]
        · rcases List.mem_cons.mp hch with rfl | hm
          · exact foldl_min_le_init _ rest _
          · exact foldl_min_le_mem _ rest _ ch hm
        · rcases List.mem_cons.mp hch with rfl | hm
          · exact foldl_max_init_le _ rest _
          · exact foldl_mem_le_max _ rest _ ch hm
        · rcases List.mem_cons.mp hch with rfl | hm
          · exact foldl_min_le_init _ rest _
          · exact foldl_min_le_mem _ rest _ ch hm
        · rcases List.mem_cons.mp hch with rfl | hm
          · exact foldl_max_init_le _ rest _
          · exact foldl_mem_le_max _ rest _ ch hm
      · rcases foldl_min_attained (fun ch => ch.coordSystem.minX) rest c.coordSystem.minX with
          h | ⟨ch, hm, h⟩
        · exact ⟨c, List.mem_cons_self c rest, h⟩
        · exact ⟨ch, List.mem_cons_of_mem c hm, h⟩
      · rcases foldl_max_attained (fun ch => ch.coordSystem.maxX) rest c.coordSystem.maxX with
          h | ⟨ch, hm, h⟩
        · exact ⟨c, List.mem_cons_self c rest, h⟩
        · exact ⟨ch, List.mem_cons_of_mem c hm, h⟩
      · rcases foldl_min_attained (fun ch => ch.coordSystem.minY) rest c.coordSystem.minY with
          h | ⟨ch, hm, h⟩
        · exact ⟨c, List.mem_cons_self c rest, h⟩
        · exact ⟨ch, List.mem_cons_of_mem c hm, h⟩
      · rcases foldl_max_attained (fun ch => ch.coordSystem.maxY) rest c.coordSystem.maxY with
          h | ⟨ch, hm, h⟩
        · exact ⟨c, List.mem_cons_self c rest, h⟩
        · exact ⟨ch, List.mem_cons_of_mem c hm, h⟩
  · intro c₁ c₂ h
    cases c₁ with
    | nil =>
      cases c₂ with
      | nil => rfl
      | cons b bs => simp at h
    | cons a as =>
      cases c₂ with
      | nil => simp at h
      | cons b bs =>
        simp only [List.map_cons, List.cons.injEq] at h
        obtain ⟨hab, hmap⟩ := h
        simp only [aggregateAxisRanges, hab]
        have h1 := foldl_min_cs_congr CoordSystem.minX as bs hmap b.coordSystem.minX
        have h2 := foldl_max_cs_congr CoordSystem.maxX as bs hmap b.coordSystem.maxX
        have h3 := foldl_min_cs_congr CoordSystem.minY as bs hmap b.coordSystem.minY
        have h4 := foldl_max_cs_congr CoordSystem.maxY as bs hmap b.coordSystem.maxY
        rw [AggregatedRange.mk.injEq]
        exact ⟨h1, h2, h3, h4⟩

/-- C6: `pearsonR` returns null whenever fewer than 2 pairs exist or either
variable has zero variance, and `linearRegression` returns null whenever
fewer than 2 pairs exist or the x-variance is zero; in particular a
constant x-series makes both return null, and a single pair makes both
return null. -/
theorem c6_correlation_null_guards :
    (∀ xs ys : List ℚ, xs.length < 2 →
      pearsonR xs ys = none ∧ linearRegression xs ys = none) ∧
    (∀ xs ys : List ℚ, xs.length = ys.length →
      (sumSqDev xs = 0 ∨ sumSqDev ys = 0 → pearsonR xs ys = none) ∧
      (sumSqDev xs = 0 → linearRegression xs ys = none)) ∧
    (∀ xs ys : List ℚ, xs.length = ys.length →
      (∀ a ∈ xs, ∀ b ∈ xs, a = b) →
      pearsonR xs ys = none ∧ linearRegression xs ys = none) ∧
    (∀ x y : ℚ, pearsonR [x] [y] = none ∧ linearRegression [x] [y] = none) := by
  refine ⟨?_, ?_, ?_, ?_⟩
  · intro xs ys hn
    exact ⟨by simp [pearsonR, hn], by simp [linearRegression, hn]⟩
  · intro xs ys hlen
    exact ⟨fun h => pearson_null_of_sumSqDev xs ys hlen h,
      fun h => linreg_null_of_sumSqDev xs ys hlen h⟩
  · intro xs ys hlen hconst
    have h0 : sumSqDev xs = 0 := sumSqDev_of_const xs hconst
    exact ⟨pearson_null_of_sumSqDev xs ys hlen (Or.inl h0),
      linreg_null_of_sumSqDev xs ys hlen h0⟩
  · intro x y
    exact ⟨by simp [pearsonR], by simp [linearRegression]⟩

/-- Witness for C6: a two-sample constant x-series (zero variance) makes
both engines return null, via the claim theorem. -/
theorem c6_correlation_null_guards_witness :
    pearsonR [1, 1] [0, 1] = none ∧ linearRegression [1, 1] [0, 1] = none :=
  c6_correlation_null_guards.2.2.1 [1, 1] [0, 1] (by decide) (by decide)

/-- C5: the histogram uses `binWidth = (max−min)/B`, assigns each value the
bin index `⌊(v−min)/binWidth⌋` clamped to `B−1` (the bin read at that index
contains the value's position, so the maximum never overflows into a
phantom B-th bin), and when `min = max` produces exactly one bin labeled by
that value and containing all values; `[7,7,7]` yields one populated bin
holding all 3 indices for any bin count. -/
theorem c5_histogram_binning :
    (∀ (values : List ℚ) (binCount : ℕ), values ≠ [] →
      minOf values = maxOf values →
      computeHistogramBins values binCount =
        [{ label := minOf values, count := values.length
           indices := List.range values.length }]) ∧
    (∀ (values : List ℚ) (binCount : ℕ), values ≠ [] → 1 ≤ binCount →
      minOf values ≠ maxOf values →
      (computeHistogramBins values binCount).length = binCount ∧
      (∀ vi, vi < values.length → ∃ b : LabeledBin,
        (computeHistogramBins values binCount).get?
            (min (⌊(values.getD vi 0 - minOf values) /
              ((maxOf values - minOf values) / (binCount : ℚ))⌋.toNat) (binCount - 1))
          = some b ∧ vi ∈ b.indices)) ∧
    (∀ binCount : ℕ, computeHistogramBins [7, 7, 7] binCount =
      [{ label := 7, count := 3, indices := [0, 1, 2] }]) := by
  refine ⟨?_, ?_, ?_⟩
  · intro values binCount hne hd
    exact computeHistogramBins_degenerate values binCount hne hd
  · intro values binCount hne hB hd
    rw [computeHistogramBins_nondegenerate values binCount hne hB hd]
    constructor
    · rw [List.length_map, List.length_range]
    · intro vi hvi
      obtain ⟨a, ha⟩ : ∃ a, values.get? vi = some a := by
        rw [List.get?_eq_get hvi]
        exact ⟨_, rfl⟩
      have hgetD : values.getD vi 0 = a := by
        rw [List.getD_eq_getD_get?, ha]
        rfl
      set mn := minOf values
      set mx := maxOf values
      set w := (mx - mn) / (binCount : ℚ) with hw
      have hidx : min (⌊(values.getD vi 0 - mn) / w⌋.toNat) (binCount - 1) =
          binIndex mn w binCount a := by
        rw [hgetD, binIndex]
      rw [hidx]
      have hjlt : binIndex mn w binCount a < binCount := binIndex_lt mn w binCount hB a
      refine ⟨_, by rw [List.get?_map, List.get?_range hjlt]; rfl, ?_⟩
      show vi ∈ (values.enum.filter
        (fun p => binIndex mn w binCount p.2 == binIndex mn w binCount a)).map Prod.fst
      apply List.mem_map.mpr
      refine ⟨(vi, a), ?_, rfl⟩
      apply List.mem_filter.mpr
      refine ⟨List.mk_mem_enum_iff_get?.mpr ha, ?_⟩
      simp
  · intro binCount
    have h7 : computeHistogramBins [7, 7, 7] binCount =
        [{ label := minOf [7, 7, 7], count := ([7, 7, 7] : List ℚ).length
           indices := List.range ([7, 7, 7] : List ℚ).length }] :=
      computeHistogramBins_degenerate [7, 7, 7] binCount (by simp) (by rfl)
    rw [h7]
    rfl

/-- Witness for C5: in the two-value histogram `[0, 1]` with two bins,
the value `1` (the maximum) lands in the last bin, index clamped to 1,
via the claim theorem. -/
theorem c5_histogram_binning_witness :
    ∃ b : LabeledBin,
      (computeHistogramBins [0, 1] 2).get?
          (min (⌊(([0, 1] : List ℚ).getD 1 0 - minOf [0, 1]) /
            ((maxOf [0, 1] - minOf [0, 1]) / (2 : ℚ))⌋.toNat) (2 - 1)) = some b ∧
        1 ∈ b.indices :=
  (c5_histogram_binning.2.1 [0, 1] 2 (by simp) (by omega) (by decide)).2 1 (by simp)

/-- C10: for every nonempty value list and bin count `B ≥ 1`, the bins
partition the input index range — each index `0 … len−1` appears in the
indices list of exactly one bin, and the bins' counts sum to the input
length. -/
theorem c10_histogram_partition :
    ∀ (values : List ℚ) (binCount : ℕ), values ≠ [] → 1 ≤ binCount →
      (∀ vi, vi < values.length →
        (computeHistogramBins values binCount).countP
          (fun b => decide (vi ∈ b.indices)) = 1) ∧
      ((computeHistogramBins values binCount).map (fun b => b.count)).sum
        = values.length := by
  intro values binCount hne hB
  by_cases hd : minOf values = maxOf values
  · rw [computeHistogramBins_degenerate values binCount hne hd]
    constructor
    · intro vi hvi
      simp [List.mem_range.mpr hvi]
    · simp
  · rw [computeHistogramBins_nondegenerate values binCount hne hB hd]
    set mn := minOf values
    set mx := maxOf values
    set w := (mx - mn) / (binCount : ℚ) with hw
    constructor
    · intro vi hvi
      obtain ⟨a, ha⟩ : ∃ a, values.get? vi = some a := by
        rw [List.get?_eq_get hvi]
        exact ⟨_, rfl⟩
      rw [List.countP_map]
      have hiff : ∀ j : ℕ,
          vi ∈ (values.enum.filter
            (fun p => binIndex mn w binCount p.2 == j)).map Prod.fst ↔
          binIndex mn w binCount a = j := by
        intro j
        constructor
        · intro hmem
          rcases List.mem_map.mp hmem with ⟨p, hpfil, hp1⟩
          rcases List.mem_filter.mp hpfil with ⟨hpe, hpj⟩
          have hpa : p.2 = a := by
            have h1 : values.get? p.1 = some p.2 := List.mem_enum_iff_get?.mp hpe
            rw [hp1, ha] at h1
            exact (Option.some.inj h1).symm
          rw [← hpa]
          simpa using hpj
        · intro hj
          apply List.mem_map.mpr
          refine ⟨(vi, a), List.mem_filter.mpr ⟨List.mk_mem_enum_iff_get?.mpr ha, ?_⟩, rfl⟩
          simp [hj]
      have hpt : ∀ j ∈ List.range binCount,
          (((fun b : LabeledBin => decide (vi ∈ b.indices)) ∘ (fun (j : ℕ) =>
            { label := mn + (j : ℚ) * w
              count := (values.enum.filter
                (fun p => binIndex mn w binCount p.2 == j)).length
              indices := (values.enum.filter
                (fun p => binIndex mn w binCount p.2 == j)).map Prod.fst })) j = true)
            ↔ (decide (binIndex mn w binCount a = j) = true) := by
        intro j _
        simp only [Function.comp_apply, decide_eq_true_eq]
        exact hiff j
      rw [List.countP_congr hpt]
      exact countP_decide_range _ _ (binIndex_lt mn w binCount hB a)
    · rw [List.map_map]
      have hcomp : ((fun b : LabeledBin => b.count) ∘ (fun (j : ℕ) =>
          { label := mn + (j : ℚ) * w
            count := (values.enum.filter
              (fun p => binIndex mn w binCount p.2 == j)).length
            indices := (values.enum.filter
              (fun p => binIndex mn w binCount p.2 == j)).map Prod.fst }))
          = fun (j : ℕ) => (values.enum.filter
              (fun p => binIndex mn w binCount p.2 == j)).length := rfl
      rw [hcomp]
      rw [sum_filter_lengths (fun p : ℕ × ℚ => binIndex mn w binCount p.2) binCount
        values.enum (fun p _ => binIndex_lt mn w binCount hB p.2)]
      exact List.enum_length

/-- Witness for C10: the three-value histogram `[0, 1, 2]` with two bins
has index 2 in exactly one bin, and bin counts summing to 3, via the claim
theorem. -/
theorem c10_histogram_partition_witness :
    (computeHistogramBins [0, 1, 2] 2).countP (fun b => decide (2 ∈ b.indices)) = 1 ∧
    ((computeHistogramBins [0, 1, 2] 2).map (fun b => b.count)).sum = 3 :=
  ⟨(c10_histogram_partition [0, 1, 2] 2 (by simp) (by omega)).1 2 (by simp),
    (c10_histogram_partition [0, 1, 2] 2 (by simp) (by omega)).2⟩

/-- C2: the ythreshold crossing walks the Y series in order — an exact
first-sample hit returns the first X with no interpolation; otherwise the
first index with an exact hit or a strict sign change wins, the latter
linearly interpolated as `x0 + ((T−y0)/(y1−y0))·(x1−x0)`; when no event
exists the walk reports nothing; and for `x=[0,1,2]`, `y=[0,10,20]`, `T=5`
the crossing is `x = 1/2` and the file offset is `−(1/2)`. -/
theorem c2_ythreshold_crossing :
    (∀ (xs ys : List ℚ) (T : ℚ), xs.length = ys.length → xs ≠ [] →
      ys.getD 0 0 = T →
      findFirstThresholdCrossing xs ys T = some (xs.getD 0 0)) ∧
    (∀ (xs ys : List ℚ) (T : ℚ) (i : ℕ), xs.length = ys.length →
      crossingEventAt ys T xs.length i →
      (∀ j, j < i → ¬ crossingEventAt ys T xs.length j) →
      findFirstThresholdCrossing xs ys T = some (crossingValueAt xs ys T i)) ∧
    (∀ (xs ys : List ℚ) (T : ℚ), xs.length = ys.length →
      (∀ i, ¬ crossingEventAt ys T xs.length i) →
      findFirstThresholdCrossing xs ys T = none) ∧
    findFirstThresholdCrossing [0, 1, 2] [0, 10, 20] 5 = some (1 / 2) ∧
    (calculateSyncOffsets [exampleSyncFile] SyncMode.ythreshold "F" "Time" 5).offsets
      "f1" = some (-(1 / 2)) ∧
    (∀ (files : List ImportedFile) (file : ImportedFile)
      (masterYAxis activeXAxis : String) (T : ℚ) (ch : CurveChannel) (c : ℚ),
      file ∈ files → (files.map (·.id)).Nodup →
      file.curves.find? (isMasterChannel masterYAxis activeXAxis) = some ch →
      ch.pointsX ≠ [] →
      findFirstThresholdCrossing ch.pointsX ch.pointsY T = some c →
      (calculateSyncOffsets files SyncMode.ythreshold masterYAxis activeXAxis
        T).offsets file.id = some (-c)) := by
  have hex : findFirstThresholdCrossing [0, 1, 2] [0, 10, 20] 5 = some (1 / 2) := by
    rw [findFirstThresholdCrossing]
    norm_num
    rw [crossingLoop]
    norm_num
  refine ⟨?_, ?_, ?_, hex, ?_, ?_⟩
  · intro xs ys T _ hne hy0
    have hlen : ¬ xs.length = 0 := fun c => hne (List.length_eq_zero.mp c)
    rw [findFirstThresholdCrossing, if_neg hlen, if_pos hy0]
  · intro xs ys T i _ hev hmin
    rcases Nat.eq_zero_or_pos i with rfl | hpos
    · rcases hev with ⟨_, hlen, hy0⟩ | ⟨h1, _, _⟩
      · rw [findFirstThresholdCrossing, if_neg (by omega), if_pos hy0,
          crossingValueAt, if_pos (Or.inr rfl)]
      · omega
    · have hlen : i < xs.length := by
        rcases hev with ⟨h0, _, _⟩ | ⟨_, hlen, _⟩
        · omega
        · exact hlen
      have hy0 : ¬ ys.getD 0 0 = T := by
        intro c
        exact hmin 0 hpos (Or.inl ⟨rfl, by omega, c⟩)
      rw [findFirstThresholdCrossing, if_neg (by omega), if_neg hy0]
      exact crossingLoop_reach xs ys T i hpos hev
        (fun j hj1 hji => hmin j hji) i 1 (by omega) (by omega) hpos
  · intro xs ys T _ hno
    rcases Nat.eq_zero_or_pos xs.length with hz | hp
    · rw [findFirstThresholdCrossing, if_pos hz]
    · have hy0 : ¬ ys.getD 0 0 = T := by
        intro c
        exact hno 0 (Or.inl ⟨rfl, hp, c⟩)
      rw [findFirstThresholdCrossing, if_neg (by omega), if_neg hy0]
      exact crossingLoop_none xs ys T xs.length 1 (by omega) (by omega)
        (fun j hj => hno j)
  · have hfind : exampleSyncFile.curves.find? (isMasterChannel "F" "Time")
        = some exampleSyncChannel := rfl
    have hfmp : findMasterPoints exampleSyncFile "F" "Time" = some [0, 1, 2] := rfl
    have hcross : findFirstThresholdCrossing exampleSyncChannel.pointsX
        exampleSyncChannel.pointsY 5 = some (1 / 2) := by
      show findFirstThresholdCrossing [0, 1, 2] [0, 10, 20] 5 = some (1 / 2)
      exact hex
    have hoff : fileSyncOffset SyncMode.ythreshold "F" "Time" 5 exampleSyncFile
        = -(1 / 2) := by
      rw [fileSyncOffset, hfmp]
      simp only [hfind, hcross]
      norm_num
    show (syncFileStep SyncMode.ythreshold "F" "Time" 5
      { offsets := fun _ => none, errors := [] } exampleSyncFile).offsets "f1"
      = some (-(1 / 2))
    rw [syncFileStep]
    show updateOffsets (fun _ => none) exampleSyncFile.id
      (fileSyncOffset SyncMode.ythreshold "F" "Time" 5 exampleSyncFile) "f1"
      = some (-(1 / 2))
    rw [hoff, updateOffsets]
    simp [exampleSyncFile]
  · intro files file masterYAxis activeXAxis T ch c hmem hnd hfind hne hcross
    rw [calculateSyncOffsets, calc_offsets_mem SyncMode.ythreshold masterYAxis
      activeXAxis T files _ file hmem hnd]
    have hfmp : findMasterPoints file masterYAxis activeXAxis = some ch.pointsX := by
      rw [findMasterPoints, hfind]
      rfl
    have hlen : ¬ ch.pointsX.length = 0 := fun h0 => hne (List.length_eq_zero.mp h0)
    rw [fileSyncOffset, hfmp]
    simp only [if_neg hlen, hfind, hcross]

/-- C7: for every file in a sync batch for which no channel matches the
active X-axis with a Y-axis identity or description equal to the master
axis string, `calculateSyncOffsets` records the per-file error message
naming that file, sets that file's offset to 0, and every file of the
batch still receives exactly the offset it would receive in a singleton
batch (the batch is never aborted). -/
theorem c7_sync_per_file_errors :
    ∀ (files : List ImportedFile) (mode : SyncMode) (masterYAxis activeXAxis : String)
      (threshold : ℚ) (file : ImportedFile), file ∈ files →
      (findMasterPoints file masterYAxis activeXAxis = none →
        noMasterMsg file masterYAxis ∈
          (calculateSyncOffsets files mode masterYAxis activeXAxis threshold).errors ∧
        ((files.map (·.id)).Nodup →
          (calculateSyncOffsets files mode masterYAxis activeXAxis threshold).offsets
            file.id = some 0)) ∧
      ((files.map (·.id)).Nodup →
        (calculateSyncOffsets files mode masterYAxis activeXAxis threshold).offsets
            file.id =
          (calculateSyncOffsets [file] mode masterYAxis activeXAxis threshold).offsets
            file.id) := by
  intro files mode masterYAxis activeXAxis threshold file hmem
  have hsingle : (calculateSyncOffsets [file] mode masterYAxis activeXAxis
      threshold).offsets file.id =
      some (fileSyncOffset mode masterYAxis activeXAxis threshold file) := by
    show (syncFileStep mode masterYAxis activeXAxis threshold
      { offsets := fun _ => none, errors := [] } file).offsets file.id = _
    rw [syncFileStep]
    show updateOffsets (fun _ => none) file.id _ file.id = _
    rw [updateOffsets, if_pos rfl]
  constructor
  · intro hnone
    have herrs : fileSyncErrors mode masterYAxis activeXAxis threshold file =
        [noMasterMsg file masterYAxis] := by
      simp [fileSyncErrors, hnone]
    have hoff : fileSyncOffset mode masterYAxis activeXAxis threshold file = 0 := by
      simp [fileSyncOffset, hnone]
    constructor
    · rw [calculateSyncOffsets,
        calc_errors_decomp mode masterYAxis activeXAxis threshold files _]
      apply List.mem_append.mpr
      right
      apply List.mem_join.mpr
      exact ⟨[noMasterMsg file masterYAxis],
        List.mem_map.mpr ⟨file, hmem, herrs⟩,
        List.mem_singleton_self _⟩
    · intro hnd
      rw [calculateSyncOffsets,
        calc_offsets_mem mode masterYAxis activeXAxis threshold files _ file hmem hnd,
        hoff]
  · intro hnd
    rw [calculateSyncOffsets,
      calc_offsets_mem mode masterYAxis activeXAxis threshold files _ file hmem hnd,
      hsingle]

/-- Witness for C7: in the two-file batch where `f2` has no channels, the
batch records the message naming `f2`, keeps its offset 0, and leaves the
present file's offset the singleton-batch offset, via the claim theorem. -/
theorem c7_sync_per_file_errors_witness :
    (noMasterMsg exampleNoMasterFile "F" ∈
      (calculateSyncOffsets [exampleSyncFile, exampleNoMasterFile]
        SyncMode.ythreshold "F" "Time" 5).errors ∧
      (calculateSyncOffsets [exampleSyncFile, exampleNoMasterFile]
        SyncMode.ythreshold "F" "Time" 5).offsets "f2" = some 0) ∧
    (calculateSyncOffsets [exampleSyncFile, exampleNoMasterFile]
        SyncMode.ythreshold "F" "Time" 5).offsets "f2" =
      (calculateSyncOffsets [exampleNoMasterFile]
        SyncMode.ythreshold "F" "Time" 5).offsets "f2" :=
  ⟨(c7_sync_per_file_errors [exampleSyncFile, exampleNoMasterFile]
      SyncMode.ythreshold "F" "Time" 5 exampleNoMasterFile
      (by simp) ).1 rfl |>.imp id (fun h => h (by decide)),
    (c7_sync_per_file_errors [exampleSyncFile, exampleNoMasterFile]
      SyncMode.ythreshold "F" "Time" 5 exampleNoMasterFile
      (by simp) ).2 (by decide)⟩

/-- C1: for equal-length series and any integer threshold,
`lttbDownsample` returns the identity index list when `threshold ≥ N` or
`threshold ≤ 2`; otherwise (2 < threshold < N) it returns an ordered list
of indices into the original arrays whose first element is 0, whose last
element is N−1, and whose length is exactly the threshold. -/
theorem c1_lttb_downsample :
    (∀ (x y : List ℚ) (threshold : ℤ),
      (x.length : ℤ) ≤ threshold ∨ threshold ≤ 2 →
      lttbDownsample x y threshold = List.range x.length) ∧
    (∀ (x y : List ℚ) (threshold : ℤ),
      2 < threshold → threshold < (x.length : ℤ) →
      ((lttbDownsample x y threshold).length : ℤ) = threshold ∧
      (lttbDownsample x y threshold).head? = some 0 ∧
      (lttbDownsample x y threshold).getLast? = some (x.length - 1) ∧
      List.Sorted (· ≤ ·) (lttbDownsample x y threshold) ∧
      ∀ e ∈ lttbDownsample x y threshold, e < x.length) := by
  constructor
  · intro x y threshold h
    rw [lttbDownsample, if_pos h]
  · intro x y threshold h2 hN
    have hcond : ¬ (threshold ≥ (x.length : ℤ) ∨ threshold ≤ 2) := by omega
    have h3 : 3 ≤ threshold.toNat := by omega
    have htN : threshold.toNat < x.length := by omega
    obtain ⟨hlen, hmem, hchain⟩ := lttbMids_spec x y x.length threshold.toNat h3 htN
      (threshold.toNat - 2) 0 0 (by omega)
    have hresult : lttbDownsample x y threshold =
        0 :: (lttbMids x y x.length threshold.toNat 0 0 (threshold.toNat - 2) ++
          [x.length - 1]) := by
      rw [lttbDownsample, if_neg hcond]
    rw [hresult]
    refine ⟨?_, rfl, ?_, ?_, ?_⟩
    · simp only [List.length_cons, List.length_append, List.length_singleton,
        List.length_nil, hlen]
      omega
    · rw [show (0 :: (lttbMids x y x.length threshold.toNat 0 0
          (threshold.toNat - 2) ++ [x.length - 1])) =
        (0 :: lttbMids x y x.length threshold.toNat 0 0 (threshold.toNat - 2)) ++
          [x.length - 1] from rfl]
      exact List.getLast?_concat _
    · rw [List.sorted_cons]
      refine ⟨fun b _ => Nat.zero_le b, ?_⟩
      rw [List.Sorted, List.pairwise_append]
      refine ⟨(List.chain'_iff_pairwise.mp hchain).imp (fun h => le_of_lt h), ?_, ?_⟩
      · exact List.pairwise_singleton _ _
      · intro a ha b hb
        rcases List.mem_singleton.mp hb with rfl
        have := (hmem a ha).2
        omega
    · intro e he
      rcases List.mem_cons.mp he with rfl | hmem2
      · omega
      · rcases List.mem_append.mp hmem2 with hm | hm
        · exact (hmem e hm).2
        · rcases List.mem_singleton.mp hm with rfl
          omega

/-- Witness for C1: the identity branch at `x=[0,1,2]`, threshold 7, and
the bounds of the downsampling branch on the 7-point linear series at
threshold 4 (first index 0, last index 6, 4 indices), via the claim
theorem. -/
theorem c1_lttb_downsample_witness :
    lttbDownsample [0, 1, 2] [5, 6, 7] 7 = [0, 1, 2] ∧
    (((lttbDownsample [0, 1, 2, 3, 4, 5, 6] [0, 1, 2, 3, 4, 5, 6] 4).length : ℤ) = 4 ∧
      (lttbDownsample [0, 1, 2, 3, 4, 5, 6] [0, 1, 2, 3, 4, 5, 6] 4).head? = some 0 ∧
      (lttbDownsample [0, 1, 2, 3, 4, 5, 6] [0, 1, 2, 3, 4, 5, 6] 4).getLast? = some 6) :=
  ⟨by
    rw [c1_lttb_downsample.1 [0, 1, 2] [5, 6, 7] 7 (by decide)]
    rfl,
    by
    obtain ⟨hl, hh, hg, -, -⟩ :=
      c1_lttb_downsample.2 [0, 1, 2, 3, 4, 5, 6] [0, 1, 2, 3, 4, 5, 6] 4
        (by decide) (by decide)
    exact ⟨hl, hh, hg⟩⟩

/-- C4: for an input string with exactly K well-formed `x="a" y="b"`
pairs, decoding with declared count K returns the K pairs in original
order with their exact parsed numeric values; declared count K+5 returns
the same K pairs (truncated to the actual count, never padded, never an
error); and declared count 0 returns the empty series regardless of the
content. -/
theorem c4_point_decoder_tolerance :
    ∀ raw : String,
      parsePoints raw (allMatches raw.data).length =
        { x := (allMatches raw.data).map (fun p => jsStrToNum (String.mk p.1))
          y := (allMatches raw.data).map (fun p => jsStrToNum (String.mk p.2))
          count := (allMatches raw.data).length } ∧
      parsePoints raw ((allMatches raw.data).length + 5) =
        { x := (allMatches raw.data).map (fun p => jsStrToNum (String.mk p.1))
          y := (allMatches raw.data).map (fun p => jsStrToNum (String.mk p.2))
          count := (allMatches raw.data).length } ∧
      parsePoints raw 0 = { x := [], y := [], count := 0 } := by
  intro raw
  have hnil : allMatches ([] : List Char) = [] := by rw [allMatches]
  refine ⟨?_, ?_, by simp [parsePoints]⟩
  · by_cases h0 : (allMatches raw.data).length = 0
    · have hm : allMatches raw.data = [] := List.length_eq_zero.mp h0
      rw [hm]
      simp [parsePoints]
    · have hraw : ¬ raw = "" := by
        intro hr
        subst hr
        exact h0 (by rw [show ("" : String).data = [] from rfl, hnil]; rfl)
      rw [parsePoints, if_neg h0, if_neg hraw,
        extractLoop_eq_take raw.data.length raw.data (le_refl _) _,
        List.take_length]
      rw [ParsedSeries.mk.injEq]
      refine ⟨?_, ?_, by rw [List.length_map]⟩
      · rw [List.map_map]
        rfl
      · rw [List.map_map]
        rfl
  · have h5 : ¬ (allMatches raw.data).length + 5 = 0 := by omega
    by_cases hraw : raw = ""
    · subst hraw
      rw [show ("" : String).data = [] from rfl, hnil]
      simp [parsePoints]
    · rw [parsePoints, if_neg h5, if_neg hraw,
        extractLoop_eq_take raw.data.length raw.data (le_refl _) _,
        List.take_all_of_le (by omega)]
      rw [ParsedSeries.mk.injEq]
      refine ⟨?_, ?_, by rw [List.length_map]⟩
      · rw [List.map_map]
        rfl
      · rw [List.map_map]
        rfl

/-- C3 (counterexample): a channel covered by an active-group tuple and
also tree-selected is pushed twice — once with the group context and once
as `"ungrouped"` — because phase (b) checks only `ungrouped-…` keys, which
phase (a) never records.  This refutes the claim that an ungrouped
tree-selected channel is added only if not already covered by an
active-group tuple with the same (file, channel) pair. -/
theorem c3_counterexample_group_covered_readded :
    (allChannels [exampleSyncFile] [exampleGroup] ["f1::c1"]).map
      (fun t => (t.groupId, t.file.id, t.channel.id)) =
      [("g1", "f1", "c1"), ("ungrouped", "f1", "c1")] ∧
    (allChannels [exampleSyncFile] [exampleGroup] ["f1::c1"]).countP
      (fun t => t.file.id == "f1" && t.channel.id == "c1") = 2 := by
  decide

/-- C3 (amended): the resolver deduplicates by the synthetic
`groupId-fileId-channelId` key, so an ungrouped tree-selected channel is
added only if no tuple with the same `ungrouped` key was already added,
and no two output tuples ever share a synthetic key (per-context
uniqueness); coverage by an active-group tuple does not block the
ungrouped addition. -/
theorem c3_amended_context_dedup :
    ∀ (files : List ImportedFile) (groups : List ChannelGroup) (sel : List String),
      ((allChannels files groups sel).map tupleKey).Nodup := by
  intro files groups sel
  have h0 : seenInv (([] : List String), ([] : List RenderTuple)) :=
    ⟨rfl, List.nodup_nil⟩
  have h1 : seenInv (groups.foldl (groupStep files) ([], [])) :=
    foldl_preserve seenInv (groupStep files) (groupStep_inv files) groups _ h0
  have h2 : seenInv (if sel.length > 0 then
      sel.foldl (treeSelStep files) (groups.foldl (groupStep files) ([], []))
    else groups.foldl (groupStep files) ([], [])) := by
    split
    · exact foldl_preserve seenInv (treeSelStep files) (treeSelStep_inv files) sel _ h1
    · exact h1
  show (((if sel.length > 0 then
      sel.foldl (treeSelStep files) (groups.foldl (groupStep files) ([], []))
    else groups.foldl (groupStep files) ([], []))).2.map tupleKey).Nodup
  rw [← h2.1]
  exact h2.2

/-- Witness for C2: the first-sample exact hit rule applied to the
concrete series `x=[4,5]`, `y=[3,9]` at threshold 3, via the claim
theorem. -/
theorem c2_ythreshold_crossing_witness :
    findFirstThresholdCrossing [4, 5] [3, 9] 3 = some 4 :=
  c2_ythreshold_crossing.1 [4, 5] [3, 9] 3 (by decide) (by decide) (by decide)

/-- Witness for C9: the aggregate of a singleton list bounds and attains
that channel's declared `minX`, via the claim theorem. -/
theorem c9_aggregate_axis_ranges_witness :
    (aggregateAxisRanges [exampleChannelA]).minX ≤
      exampleChannelA.coordSystem.minX ∧
    ∃ ch ∈ [exampleChannelA],
      (aggregateAxisRanges [exampleChannelA]).minX = ch.coordSystem.minX :=
  ⟨((c9_aggregate_axis_ranges.2.1 [exampleChannelA] (by simp)).1 exampleChannelA
      (List.mem_singleton_self _)).1,
    (c9_aggregate_axis_ranges.2.1 [exampleChannelA] (by simp)).2.1⟩

end CurveViewer
